import Mathlib

/-!
Verification development for the identity-change tracking bot.

This file gives a shallow embedding of the core data model and operations:

* `src/core/textnorm.py` — Unicode canonicalization of name fields
  (`sanitize_name`), modelled over a fragment of the Unicode character
  database sufficient for the characters the properties mention;
* `src/tgbot/announce_guard.py` — the two-tier announce guard
  (`should_announce`, `should_announce_persisted`, `name_fingerprint`);
* `src/chats/repository.py` — the `chat_members` table and its
  conditional update `set_last_announced_fp`;
* `src/welcome/repository.py` — the `user_names` snapshot store
  (`insert_name_snapshot_if_new`, `fetch_history_by_user_id`,
  `fetch_snapshot_before_or_at`);
* `src/tgbot/handlers.py` — the welcome dedup guard
  (`_RecentWelcomeGuard.should_welcome`);
* `src/tgbot/scanner.py` — the batch scan loop `_scan_tick`.

Stateful Python is modelled by explicit state passing; SQL statements are
modelled by their documented semantics over explicit table values; wall-clock
times (`time.time()` floats) are rationals; database timestamps are natural
numbers (whole seconds UTC, matching the store's second granularity).
-/

namespace BotSpec

/-! ### Unicode fragment

`textnorm.py` consults `unicodedata.category` only through the tests
`category(ch) == "Zs"` and `category(ch) in {"Cf", "Cc"}`, and
`unicodedata.normalize("NFC", ·)`.  We model the category table, canonical
combining classes and canonical (de)composition pairs for a documented
fragment of the Unicode database: ASCII, the Unicode space/format/control
characters, the combining diacritics U+0300–U+0304 (all of canonical
combining class 230) and a handful of precomposed Latin letters.  Characters
outside the fragment are category `other`, class 0 and have no
decomposition, so they pass through every stage unchanged — exactly as they
do in the source pipeline. -/

/-- The Unicode general categories the pipeline distinguishes. -/
inductive UCat where
  | Zs | Zl | Zp | Cf | Cc | Mn | other
deriving DecidableEq, Repr

/-- Unicode general category (fragment, see section header). -/
def ucat (c : Char) : UCat :=
  let n := c.toNat
  if n < 0x20 ∨ n = 0x7F ∨ n = 0x85 then .Cc
  else if n = 0x20 ∨ n = 0xA0 ∨ n = 0x1680 ∨ (0x2000 ≤ n ∧ n ≤ 0x200A) ∨
      n = 0x202F ∨ n = 0x205F ∨ n = 0x3000 then .Zs
  else if n = 0x2028 then .Zl
  else if n = 0x2029 then .Zp
  else if n = 0xAD ∨ (0x200B ≤ n ∧ n ≤ 0x200F) ∨ (0x202A ≤ n ∧ n ≤ 0x202E) ∨
      (0x2060 ≤ n ∧ n ≤ 0x2064) ∨ n = 0xFEFF then .Cf
  else if 0x0300 ≤ n ∧ n ≤ 0x036F then .Mn
  else .other

/-- The characters matched by Python's regex `\s` (and stripped by
`str.strip()`): tab/newline-style controls, the ASCII space, NEL, and every
Unicode space/line/paragraph separator. -/
def isPySpace (c : Char) : Bool :=
  let n := c.toNat
  decide ((0x9 ≤ n ∧ n ≤ 0xD) ∨ (0x1C ≤ n ∧ n ≤ 0x1F) ∨ n = 0x85 ∨
    ucat c = .Zs ∨ ucat c = .Zl ∨ ucat c = .Zp)

/-- Canonical combining class (fragment): the combining diacritics
U+0300–U+0304 all have class 230; every other modelled character is a
starter (class 0). -/
def ccc (c : Char) : Nat :=
  if 0x0300 ≤ c.toNat ∧ c.toNat ≤ 0x0304 then 230 else 0

/-- Canonical composition pairs of the fragment:
`(composed, base, combining mark)`. -/
def canonPairs : List (Char × Char × Char) :=
  [('à', 'a', '̀'), ('á', 'a', '́'), ('â', 'a', '̂'),
   ('è', 'e', '̀'), ('é', 'e', '́'), ('ê', 'e', '̂'),
   ('À', 'A', '̀'), ('É', 'E', '́')]

/-- Canonical decomposition of a character (the fragment's decompositions
are terminal: their targets decompose no further). -/
def canonDecomp (c : Char) : Option (Char × Char) :=
  (canonPairs.find? (fun p => decide (p.1 = c))).map (·.2)

/-- Primary composite of a base character and a combining mark. -/
def composePair (a m : Char) : Option Char :=
  (canonPairs.find? (fun p => decide (p.2.1 = a ∧ p.2.2 = m))).map (·.1)

/-- One character's full canonical decomposition. -/
def decompChar (c : Char) : List Char :=
  match canonDecomp c with
  | some (a, m) => [a, m]
  | none => [c]

/-- Canonical decomposition of a character sequence. -/
def decompAll : List Char → List Char
  | [] => []
  | c :: rest => decompChar c ++ decompAll rest

/-- One pass of the canonical ordering algorithm, carrying the pending
character: swap adjacent characters when the second has a nonzero combining
class smaller than the first's. -/
def bubbleGo (a : Char) : List Char → List Char
  | [] => [a]
  | b :: rest =>
    if ccc b ≠ 0 ∧ ccc b < ccc a then b :: bubbleGo a rest
    else a :: bubbleGo b rest

/-- One pass of the canonical ordering algorithm. -/
def reorderPass : List Char → List Char
  | [] => []
  | a :: rest => bubbleGo a rest

/-- Canonical ordering, iterated to a fixed point under a fuel bound. -/
def canonReorder : Nat → List Char → List Char
  | 0, l => l
  | fuel + 1, l =>
    let l' := reorderPass l
    if l' = l then l else canonReorder fuel l'

/-- Canonical decomposition followed by canonical ordering (NFD). -/
def nfd (l : List Char) : List Char :=
  canonReorder (decompAll l).length (decompAll l)

/-- Canonical composition walk: `starter` is the last starter seen,
`marksRev` the (reversed) combining marks attached to it so far.  A mark
composes with the starter only when not blocked, i.e. when the previous
character is the starter itself or a mark of strictly smaller class. -/
def composeGo (starter : Char) (marksRev : List Char) : List Char → List Char
  | [] => starter :: marksRev.reverse
  | c :: rest =>
    if ccc c = 0 then
      match composePair starter c with
      | some s =>
        if marksRev.isEmpty then composeGo s [] rest
        else starter :: marksRev.reverse ++ composeGo c [] rest
      | none => starter :: marksRev.reverse ++ composeGo c [] rest
    else
      match composePair starter c with
      | some s =>
        match marksRev with
        | [] => composeGo s [] rest
        | m :: _ => if ccc m < ccc c then composeGo s marksRev rest
                    else composeGo starter (c :: marksRev) rest
      | none => composeGo starter (c :: marksRev) rest

/-- Canonical composition of a canonically ordered sequence. -/
def nfcCompose : List Char → List Char
  | [] => []
  | c :: rest => composeGo c [] rest

/-- `unicodedata.normalize("NFC", ·)` over the fragment. -/
def nfc (l : List Char) : List Char :=
  nfcCompose (nfd l)

/-! ### `sanitize_name` (src/core/textnorm.py) -/

/-- `_collapse_unicode_spaces`: map every Zs character to an ASCII space. -/
def zsToSpace (c : Char) : Char :=
  if ucat c = .Zs then ' ' else c

/-- `_strip_invisibles_and_controls`: the characters removed (Cf or Cc). -/
def isInvisible (c : Char) : Bool :=
  decide (ucat c = .Cf ∨ ucat c = .Cc)

/-- `re.sub(r"\s+", " ", s)`: replace each maximal whitespace run with a
single ASCII space.  The flag records whether we are inside a run whose
replacement space was already emitted. -/
def collapseWsAux : Bool → List Char → List Char
  | _, [] => []
  | inRun, c :: rest =>
    if isPySpace c then
      if inRun then collapseWsAux true rest
      else ' ' :: collapseWsAux true rest
    else c :: collapseWsAux false rest

/-- `re.sub(r"\s+", " ", s)`. -/
def collapseWs (l : List Char) : List Char :=
  collapseWsAux false l

/-- `str.strip()`: drop leading and trailing whitespace. -/
def stripWs (l : List Char) : List Char :=
  ((l.dropWhile isPySpace).reverse.dropWhile isPySpace).reverse

/-- The `sanitize_name` pipeline on a character sequence: NFC, Zs → space,
strip invisibles/controls, collapse whitespace runs, trim. -/
def sanitizeChars (l : List Char) : List Char :=
  stripWs (collapseWs (((nfc l).map zsToSpace).filter (fun c => !isInvisible c)))

/-- `sanitize_name(v)`: `None` and the empty string canonicalize to `""`;
otherwise run the pipeline. -/
def sanitize_name (v : Option String) : String :=
  match v with
  | none => ""
  | some s => if s = "" then "" else ⟨sanitizeChars s.data⟩

/-! ### `name_fingerprint` (src/tgbot/announce_guard.py) -/

/-- `name_fingerprint`: the `"\x1f"`-joined composite of the canonicalized
first name, last name and username. -/
def name_fingerprint (firstName lastName username : Option String) : String :=
  sanitize_name firstName ++ "\x1F" ++ sanitize_name lastName ++ "\x1F"
    ++ sanitize_name username

/-- Whether a sequence does not start with whitespace (a proof device for
the pipeline's invariants). -/
def headNotSpace : List Char → Bool
  | [] => true
  | c :: _ => !isPySpace c

/-- Adjacent characters are never both whitespace (a proof device: the
invariant of collapsed output, read through `List.Chain'`). -/
def spacedR (a b : Char) : Prop :=
  isPySpace a = false ∨ isPySpace b = false


/-! ### The `chat_members` table (src/chats/repository.py)

A row per (conversation, entity) Membership.  Database timestamps are whole
seconds (UTC).  `last_announced_at` is written from the database clock and
read by no modelled operation, so it is not carried. -/

/-- One `chat_members` row. -/
structure ChatMemberRow where
  chatId : Int
  userId : Int
  firstSeenAt : Nat
  lastSeenAt : Nat
  lastCheckedAt : Nat
  lastAnnouncedFp : Option String
deriving DecidableEq, Repr

/-- The `chat_members` table. -/
abbrev ChatMembersTable := List ChatMemberRow

/-- `WHERE chat_id = :cid AND user_id = :uid`. -/
def rowMatches (chatId userId : Int) (r : ChatMemberRow) : Bool :=
  decide (r.chatId = chatId ∧ r.userId = userId)

/-- Python string slicing `s[:n]` (over code points). -/
def pyTake (s : String) (n : Nat) : String :=
  ⟨s.data.take n⟩

/-- The `WHERE` clause of `set_last_announced_fp`:
`chat_id = :cid AND user_id = :uid AND (last_announced_fp IS NULL OR
last_announced_fp <> :fp)`, with `:fp` already truncated. -/
def fpCond (chatId userId : Int) (f : String) (r : ChatMemberRow) : Bool :=
  rowMatches chatId userId r &&
    decide (r.lastAnnouncedFp = none ∨ r.lastAnnouncedFp ≠ some f)

/-- `set_last_announced_fp`: conditional `UPDATE` binding `fp[:300]`,
reporting whether any row was updated (`rowcount > 0`). -/
def set_last_announced_fp (db : ChatMembersTable) (chatId userId : Int)
    (fp : String) : Bool × ChatMembersTable :=
  let f := pyTake fp 300
  (db.any (fpCond chatId userId f),
   db.map (fun r =>
     if fpCond chatId userId f r then { r with lastAnnouncedFp := some f } else r))

/-! ### The in-memory announce cache (src/tgbot/announce_guard.py)

`_LRU` is an `OrderedDict` keyed by `(chat_id, user_id)`; we model it as an
association list whose front is the least recently used entry.  Wall-clock
timestamps (`time.time()`) are rationals. -/

/-- `_Entry`: cached fingerprint and the time it was recorded. -/
structure CacheEntry where
  fp : String
  ts : ℚ
deriving DecidableEq, Repr

/-- Guard cache key: `(chat_id, user_id)`. -/
abbrev GKey := Int × Int

/-- `_LRU`, front = least recently used. -/
abbrev AnnounceCache := List (GKey × CacheEntry)

/-- `_MAX_ENTRIES`. -/
def maxEntries : Nat := 100000

/-- `_ANNOUNCE_TTL_SECONDS`. -/
def announceTtlSeconds : ℚ := 300

/-- `OrderedDict.get`. -/
def lruLookup (c : AnnounceCache) (k : GKey) : Option CacheEntry :=
  (c.find? (fun p => decide (p.1 = k))).map (·.2)

/-- Drop the entry for `k` (step of `__setitem__` + `move_to_end`). -/
def lruRemove (c : AnnounceCache) (k : GKey) : AnnounceCache :=
  c.filter (fun p => !decide (p.1 = k))

/-- `_LRU.get_move`: look up and mark most recently used. -/
def lruGetMove (c : AnnounceCache) (k : GKey) : Option CacheEntry × AnnounceCache :=
  match lruLookup c k with
  | none => (none, c)
  | some e => (some e, lruRemove c k ++ [(k, e)])

/-- `_LRU.set`: write, mark most recently used, evict the least recently
used entry when over capacity. -/
def lruSet (c : AnnounceCache) (k : GKey) (e : CacheEntry) : AnnounceCache :=
  let c' := lruRemove c k ++ [(k, e)]
  if maxEntries < c'.length then c'.drop 1 else c'

/-- `should_announce`: the local tier.  Suppresses a repeat of the cached
fingerprint within `ttl`; otherwise records the new fingerprint and falls
through. -/
def should_announce (cache : AnnounceCache) (chatId userId : Int)
    (fingerprint : String) (ttl : ℚ) (now : ℚ) : Bool × AnnounceCache :=
  let key : GKey := (chatId, userId)
  let gm := lruGetMove cache key
  match gm.1 with
  | some e =>
    if e.fp = fingerprint ∧ now - e.ts < ttl then (false, gm.2)
    else (true, lruSet gm.2 key ⟨fingerprint, now⟩)
  | none => (true, lruSet gm.2 key ⟨fingerprint, now⟩)

/-- `should_announce_persisted`: local tier, then the persisted conditional
update; allows only when the conditional update reports a change. -/
def should_announce_persisted (cache : AnnounceCache) (db : ChatMembersTable)
    (chatId userId : Int) (fingerprint : String) (memoryTtl : ℚ) (now : ℚ) :
    Bool × AnnounceCache × ChatMembersTable :=
  let localRes := should_announce cache chatId userId fingerprint memoryTtl now
  if !localRes.1 then (false, localRes.2, db)
  else
    let upd := set_last_announced_fp db chatId userId fingerprint
    (upd.1, localRes.2, upd.2)

/-! ### Concurrent guard executions (for the at-most-once property)

`should_announce` contains no suspension point, so it is one atomic step;
the persisted conditional update is a second atomic step.  A world holds the
shared cache and table plus each caller's phase; a schedule interleaves the
callers' steps arbitrarily, supplying the wall-clock time each step
observes. -/

/-- Progress of one `should_announce_persisted` caller. -/
inductive CallerPhase where
  | start
  | passedCache
  | done (allowed : Bool)
deriving DecidableEq, Repr

/-- Shared state plus the callers' phases. -/
structure GuardWorld where
  cache : AnnounceCache
  db : ChatMembersTable
  callers : List CallerPhase
deriving Repr

/-- One atomic step of caller `i`, all callers invoking the guard for the
same `(chatId, userId)` with the same fingerprint `F`. -/
def guardStep (chatId userId : Int) (F : String) (w : GuardWorld) (i : Nat)
    (now : ℚ) : GuardWorld :=
  match w.callers[i]? with
  | none => w
  | some .start =>
    let sa := should_announce w.cache chatId userId F announceTtlSeconds now
    if sa.1 then { w with cache := sa.2, callers := w.callers.set i .passedCache }
    else { w with cache := sa.2, callers := w.callers.set i (.done false) }
  | some .passedCache =>
    let upd := set_last_announced_fp w.db chatId userId F
    { w with db := upd.2, callers := w.callers.set i (.done upd.1) }
  | some (.done _) => w

/-- Run a schedule of `(caller, observed time)` steps. -/
def guardRun (chatId userId : Int) (F : String) (w : GuardWorld)
    (sched : List (Nat × ℚ)) : GuardWorld :=
  sched.foldl (fun w s => guardStep chatId userId F w s.1 s.2) w

/-- Number of callers that finished with allow. -/
def allowCount (w : GuardWorld) : Nat :=
  w.callers.countP (fun p => decide (p = .done true))

/-! ### The snapshot store (src/welcome/repository.py)

`user_names` rows carry an autoincrement `id` and the unique canonical tuple
`(user_id, first_name, last_name, username)`; `users` records which entities
have a user row (its other columns are read by no modelled operation). -/

/-- One `user_names` row. -/
structure NameRow where
  rid : Nat
  userId : Int
  firstName : String
  lastName : String
  username : String
  seenAt : Nat
deriving DecidableEq, Repr

/-- The `user_names` table with its autoincrement counter. -/
structure NamesTable where
  rows : List NameRow
  nextId : Nat
deriving DecidableEq, Repr

/-- The storage uniqueness key `(user_id, first_name, last_name, username)`. -/
def sameKey (uid : Int) (fn ln un : String) (r : NameRow) : Bool :=
  decide (r.userId = uid ∧ r.firstName = fn ∧ r.lastName = ln ∧ r.username = un)

/-- The `ON DUPLICATE KEY UPDATE seen_at = GREATEST(seen_at,
VALUES(seen_at))` clause applied to one row. -/
def bumpRow (uid : Int) (fn ln un : String) (seenAt : Nat) (r : NameRow) :
    NameRow :=
  if sameKey uid fn ln un r then { r with seenAt := max r.seenAt seenAt } else r

/-- `insert_name_snapshot_if_new`: sanitize and truncate the fields, then
`INSERT ... ON DUPLICATE KEY UPDATE seen_at = GREATEST(seen_at,
VALUES(seen_at))`.  `seenAt` is the effective observation timestamp
(`seen_at_override`, or the database clock when absent). -/
def insert_name_snapshot_if_new (tbl : NamesTable) (uid : Int)
    (firstName lastName username : Option String) (seenAt : Nat) : NamesTable :=
  let fn := pyTake (sanitize_name firstName) 64
  let ln := pyTake (sanitize_name lastName) 64
  let un := pyTake (sanitize_name username) 32
  if tbl.rows.any (sameKey uid fn ln un) then
    { tbl with rows := tbl.rows.map (bumpRow uid fn ln un seenAt) }
  else
    { rows := tbl.rows ++ [⟨tbl.nextId, uid, fn, ln, un, seenAt⟩],
      nextId := tbl.nextId + 1 }

/-- The persisted state the welcome repository reads. -/
structure WelcomeDb where
  users : List Int
  names : NamesTable
deriving DecidableEq, Repr

/-- `ORDER BY seen_at ASC, id ASC`. -/
def histLe (r1 r2 : NameRow) : Prop :=
  r1.seenAt < r2.seenAt ∨ (r1.seenAt = r2.seenAt ∧ r1.rid ≤ r2.rid)

instance : DecidableRel histLe := fun r1 r2 => by
  unfold histLe; infer_instance

instance : IsTotal NameRow histLe where
  total r1 r2 := by unfold histLe; omega

instance : IsTrans NameRow histLe where
  trans r1 r2 r3 := by unfold histLe; omega

/-- `fetch_history_by_user_id`: the entity's snapshots ordered
`seen_at ASC, id ASC`; when there are none, `None` for an unknown entity and
`[]` for a known one. -/
def fetch_history_by_user_id (db : WelcomeDb) (uid : Int) :
    Option (List NameRow) :=
  let rows :=
    List.insertionSort histLe (db.names.rows.filter (fun r => decide (r.userId = uid)))
  if rows.isEmpty then
    if uid ∈ db.users then some [] else none
  else some rows

/-- Keep the row maximal for `ORDER BY seen_at DESC, id DESC`. -/
def pickLatest (best : Option NameRow) (r : NameRow) : Option NameRow :=
  match best with
  | none => some r
  | some b =>
    if b.seenAt < r.seenAt ∨ (b.seenAt = r.seenAt ∧ b.rid < r.rid) then some r
    else some b

/-- `fetch_snapshot_before_or_at`: the row maximal for
`ORDER BY seen_at DESC, id DESC` among the entity's rows with
`seen_at <= cutoff` (`LIMIT 1`). -/
def fetch_snapshot_before_or_at (tbl : NamesTable) (uid : Int) (cutoff : Nat) :
    Option NameRow :=
  (tbl.rows.filter (fun r => decide (r.userId = uid ∧ r.seenAt ≤ cutoff))).foldl
    pickLatest none

/-- A platform user as seen by handlers and the scanner. -/
structure UserView where
  id : Int
  isBot : Bool
  firstName : Option String
  lastName : Option String
  username : Option String
deriving DecidableEq, Repr

/-- `upsert_user` (presence only; the row's other columns are read by no
modelled operation). -/
def upsert_user (db : WelcomeDb) (uid : Int) : WelcomeDb :=
  if uid ∈ db.users then db else { db with users := db.users ++ [uid] }

/-- `record_user_snapshot` (src/welcome/service.py): upsert the user row and
insert a snapshot at the database clock `now`. -/
def record_user_snapshot (db : WelcomeDb) (u : UserView) (now : Nat) : WelcomeDb :=
  let db1 := upsert_user db u.id
  { db1 with
    names := insert_name_snapshot_if_new db1.names u.id u.firstName u.lastName u.username now }

/-! ### The welcome dedup guard (src/tgbot/handlers.py, `_RecentWelcomeGuard`)

An `OrderedDict` from `(chat_id, user_id)` to the last welcome wall-clock
time, front = oldest. -/

/-- `_RecentWelcomeGuard`'s contents. -/
abbrev WelcomeGuard := List (GKey × ℚ)

/-- `_WELCOME_TTL_SECONDS`. -/
def welcomeTtlSeconds : ℚ := 30

/-- `_WELCOME_GUARD_MAX`. -/
def welcomeGuardMax : Nat := 100000

/-- `_cleanup`: pop expired entries from the front, stopping at the first
unexpired one. -/
def welcomeCleanup (g : WelcomeGuard) (now ttl : ℚ) : WelcomeGuard :=
  g.dropWhile (fun p => decide (now - p.2 > ttl))

/-- `OrderedDict.get` on the welcome guard. -/
def wgLookup (g : WelcomeGuard) (k : GKey) : Option ℚ :=
  (g.find? (fun p => decide (p.1 = k))).map (·.2)

/-- The marking tail of `should_welcome`: record `now` for the key, move it
to the end, evict the oldest entry when over capacity, and report `True`. -/
def wgMark (g1 : WelcomeGuard) (k : GKey) (now : ℚ) : Bool × WelcomeGuard :=
  let g2 := g1.filter (fun p => !decide (p.1 = k)) ++ [(k, now)]
  (true, if welcomeGuardMax < g2.length then g2.drop 1 else g2)

/-- `_RecentWelcomeGuard.should_welcome`. -/
def should_welcome (g : WelcomeGuard) (chatId userId : Int) (now ttl : ℚ) :
    Bool × WelcomeGuard :=
  let g1 := welcomeCleanup g now ttl
  let key : GKey := (chatId, userId)
  match wgLookup g1 key with
  | some ts => if now - ts < ttl then (false, g1) else wgMark g1 key now
  | none => wgMark g1 key now

/-! ### The staleness scanner (src/tgbot/scanner.py, `_scan_tick`)

The loop walks the batch list by index; the external platform's responses
are scripted: one `FetchOutcome` per `get_chat_member` attempt and one
`SendOutcome` per announcement send, consumed in order (an exhausted script
reads as a generic transient error / successful send).  The chat-language
lookup feeds only message localization, which is outside the modelled core,
and is omitted.  Sessions and commits are elided: every database operation
acts directly on the carried tables. -/

/-- Membership status strings the scanner inspects. -/
inductive MemberStatus where
  | member | administrator | creator | restricted | left | kicked
deriving DecidableEq, Repr

/-- Result of one `bot.get_chat_member` call: the exception raised or the
member returned. -/
inductive FetchOutcome where
  | retryAfter (seconds : Int)
  | forbidden
  | badRequest
  | otherError
  | ok (status : MemberStatus) (user : Option UserView)
deriving DecidableEq, Repr

/-- Result of one announcement send. -/
inductive SendOutcome where
  | sent
  | rateLimited (seconds : Int)
  | failed
deriving DecidableEq, Repr

/-- Observable actions of a scan run. -/
inductive ScanEvent where
  | fetchAttempt (chatId userId : Int)
  | paceSleep (amount : ℚ)
  | backoffSleep (seconds : Int)
  | requeued (chatId userId : Int)
  | prunedChat (chatId : Int)
  | markedInactive (chatId : Int)
  | markedChecked (chatId userId : Int)
  | removedMember (chatId userId : Int)
  | announced (chatId userId : Int) (changes : List (String × String × String))
deriving DecidableEq, Repr

/-- Scanner job configuration: `min_gap` and `retry_leeway`. -/
structure ScanConfig where
  minGap : ℚ
  retryLeeway : Int
deriving Repr

/-- State of one `_scan_tick` run. -/
structure ScanState where
  pairs : List (Int × Int × Nat)
  idx : Nat
  attempt : Nat
  sends : Nat
  lastCallTs : ℚ
  now : ℚ
  members : ChatMembersTable
  welcome : WelcomeDb
  cache : AnnounceCache
  events : List ScanEvent
deriving Repr

/-- `'1970-01-01 00:00:01'`, the epoch-like minimum watermark. -/
def epochMin : Nat := 1

/-- `remove_member` (src/chats/repository.py). -/
def remove_member (db : ChatMembersTable) (chatId userId : Int) :
    ChatMembersTable :=
  db.filter (fun r => !rowMatches chatId userId r)

/-- `mark_checked` (src/chats/repository.py). -/
def mark_checked (db : ChatMembersTable) (chatId userId : Int) (now : Nat) :
    ChatMembersTable :=
  db.map (fun r =>
    if rowMatches chatId userId r then { r with lastCheckedAt := now } else r)

/-- `prune_chat_members_for_chat` (src/chats/repository.py). -/
def prune_chat_members_for_chat (db : ChatMembersTable) (chatId : Int) :
    ChatMembersTable :=
  db.filter (fun r => !decide (r.chatId = chatId))

/-- `get_member_first_seen` (src/chats/repository.py), `epochMin` when the
row is missing. -/
def get_member_first_seen (db : ChatMembersTable) (chatId userId : Int) : Nat :=
  match db.find? (rowMatches chatId userId) with
  | some r => r.firstSeenAt
  | none => epochMin

/-- The scanner's per-field diff against the re-normalized previous
snapshot. -/
def diffFields (prev : NameRow) (currFn currLn currUn : String) :
    List (String × String × String) :=
  let prevFn := sanitize_name (some prev.firstName)
  let prevLn := sanitize_name (some prev.lastName)
  let prevUn := sanitize_name (some prev.username)
  (if prevFn ≠ currFn then [("first", prevFn, currFn)] else []) ++
    (if prevLn ≠ currLn then [("last", prevLn, currLn)] else []) ++
    (if prevUn ≠ currUn then [("username", prevUn, currUn)] else [])

/-- `_respect_ratelimit`: enforce the minimum inter-call gap by sleeping the
remainder, then stamp the call time. -/
def respectRatelimit (cfg : ScanConfig) (st : ScanState) : ScanState :=
  if cfg.minGap ≤ 0 then st
  else
    let sleepFor := st.lastCallTs + cfg.minGap - st.now
    let st1 :=
      if 0 < sleepFor then
        { st with now := st.now + sleepFor, events := st.events ++ [.paceSleep sleepFor] }
      else st
    { st1 with lastCallTs := st1.now }

/-- The success path of one scanned pair (scanner.py lines 159–253): status
and bot filtering, as-of lookup with first-seen fallback, snapshot record,
watermark advance, per-field diff, guard, and best-effort announce. -/
def scanProcessMember (cfg : ScanConfig) (sendsScript : List SendOutcome)
    (st : ScanState) (chatId userId : Int) (status : MemberStatus)
    (user : Option UserView) : ScanState :=
  if status = .left ∨ status = .kicked then
    let nowSec := st.now.floor.toNat
    { st with
      members := mark_checked (remove_member st.members chatId userId) chatId userId nowSec,
      events := st.events ++ [.removedMember chatId userId, .markedChecked chatId userId] }
  else
    match user with
    | none =>
      let nowSec := st.now.floor.toNat
      { st with members := mark_checked st.members chatId userId nowSec,
                events := st.events ++ [.markedChecked chatId userId] }
    | some u =>
      if u.isBot then
        let nowSec := st.now.floor.toNat
        { st with members := mark_checked st.members chatId userId nowSec,
                  events := st.events ++ [.markedChecked chatId userId] }
      else
        let currFn := sanitize_name u.firstName
        let currLn := sanitize_name u.lastName
        let currUn := sanitize_name u.username
        let lastCheckedAt := (st.pairs.getD (st.idx - 1) (0, 0, 0)).2.2
        let prev0 := fetch_snapshot_before_or_at st.welcome.names u.id lastCheckedAt
        let prev :=
          match prev0 with
          | some p => some p
          | none =>
            let fs := get_member_first_seen st.members chatId userId
            if fs ≠ epochMin then fetch_snapshot_before_or_at st.welcome.names u.id fs
            else none
        let nowSec := st.now.floor.toNat
        let st := { st with
          welcome := record_user_snapshot st.welcome u nowSec,
          members := mark_checked st.members chatId userId nowSec,
          events := st.events ++ [.markedChecked chatId userId] }
        match prev with
        | none => st
        | some p =>
          let diffs := diffFields p currFn currLn currUn
          if diffs.isEmpty then st
          else
            let fp := name_fingerprint (some currFn) (some currLn) (some currUn)
            match should_announce_persisted st.cache st.members chatId userId fp
                announceTtlSeconds st.now with
            | (false, cache', db') => { st with cache := cache', members := db' }
            | (true, cache', db') =>
              let st := { st with cache := cache', members := db' }
              let st := respectRatelimit cfg st
              let send := sendsScript.getD st.sends SendOutcome.sent
              let st := { st with sends := st.sends + 1 }
              match send with
              | .sent =>
                { st with events := st.events ++ [.announced chatId userId diffs] }
              | .rateLimited n =>
                let waitS : Int := max 1 n + max 0 cfg.retryLeeway
                { st with now := st.now + (waitS : ℚ),
                          events := st.events ++ [.backoffSleep waitS] }
              | .failed => st

/-- One iteration of the `while idx < len(pairs)` loop of `_scan_tick`. -/
def scanStep (cfg : ScanConfig) (fetches : List FetchOutcome)
    (sendsScript : List SendOutcome) (st : ScanState) : ScanState :=
  match st.pairs[st.idx]? with
  | none => st
  | some (chatId, userId, lastCheckedAt) =>
    let st := { st with idx := st.idx + 1 }
    let st := respectRatelimit cfg st
    let outcome := fetches.getD st.attempt FetchOutcome.otherError
    let st := { st with attempt := st.attempt + 1,
                        events := st.events ++ [.fetchAttempt chatId userId] }
    match outcome with
    | .retryAfter n =>
      let waitS : Int := max 1 n + max 0 cfg.retryLeeway
      let st := { st with now := st.now + (waitS : ℚ),
                          events := st.events ++ [ScanEvent.backoffSleep waitS] }
      { st with pairs := st.pairs ++ [(chatId, userId, lastCheckedAt)],
                lastCallTs := st.now,
                events := st.events ++ [ScanEvent.requeued chatId userId] }
    | .forbidden =>
      { st with members := prune_chat_members_for_chat st.members chatId,
                events := st.events ++ [.prunedChat chatId, .markedInactive chatId] }
    | .badRequest =>
      let nowSec := st.now.floor.toNat
      { st with members := mark_checked st.members chatId userId nowSec,
                events := st.events ++ [.markedChecked chatId userId] }
    | .otherError => st
    | .ok status user => scanProcessMember cfg sendsScript st chatId userId status user

/-- Run the loop under a fuel bound. -/
def scanRun (cfg : ScanConfig) (fetches : List FetchOutcome)
    (sendsScript : List SendOutcome) : Nat → ScanState → ScanState
  | 0, st => st
  | fuel + 1, st =>
    if st.idx < st.pairs.length then
      scanRun cfg fetches sendsScript fuel (scanStep cfg fetches sendsScript st)
    else st

/-- The `(chat_id, user_id)` pairs fetched, in order. -/
def attemptsOf (evs : List ScanEvent) : List (Int × Int) :=
  evs.filterMap (fun e =>
    match e with
    | .fetchAttempt c u => some (c, u)
    | _ => none)

/-- Invariant of concurrent guard executions for fingerprint `F`: at most
one allow so far, and once a caller has been allowed, every matching
Membership row stores the truncated fingerprint. -/
def guardInv (chatId userId : Int) (F : String) (w : GuardWorld) : Prop :=
  allowCount w ≤ 1 ∧
    (1 ≤ allowCount w →
      ∀ r ∈ w.db, rowMatches chatId userId r = true →
        r.lastAnnouncedFp = some (pyTake F 300))

/-- Three sequential `should_announce_persisted` calls for one pair with
fingerprints `a`, `b`, `a` at times `t1 ≤ t2 ≤ t3`, threading cache and
table; returns the three decisions. -/
def guardTriple (cache : AnnounceCache) (db : ChatMembersTable)
    (chatId userId : Int) (a b : String) (ttl t1 t2 t3 : ℚ) :
    Bool × Bool × Bool :=
  let s1 := should_announce_persisted cache db chatId userId a ttl t1
  let s2 := should_announce_persisted s1.2.1 s1.2.2 chatId userId b ttl t2
  let s3 := should_announce_persisted s2.2.1 s2.2.2 chatId userId a ttl t3
  (s1.1, s2.1, s3.1)

/-- Run `should_welcome` for one pair at each time in the list, threading
the guard state; returns the sequence of decisions. -/
def welcomeSeq (g : WelcomeGuard) (chatId userId : Int) (ttl : ℚ) :
    List ℚ → List Bool
  | [] => []
  | t :: rest =>
    let s := should_welcome g chatId userId t ttl
    s.1 :: welcomeSeq s.2 chatId userId ttl rest

/-- Number of stored snapshot rows for a canonical tuple. -/
def countKey (tbl : NamesTable) (uid : Int) (fn ln un : String) : Nat :=
  (tbl.rows.filter (sameKey uid fn ln un)).length

/-- The stored observation timestamp of a canonical tuple's row. -/
def seenAtOf (tbl : NamesTable) (uid : Int) (fn ln un : String) : Option Nat :=
  (tbl.rows.find? (sameKey uid fn ln un)).map (·.seenAt)

/-! ## Properties

### The persisted conditional update -/

/-- After any `set_last_announced_fp`, every row of the pair stores the
truncated fingerprint. -/
theorem set_fp_allMatching (db : ChatMembersTable) (chatId userId : Int)
    (fp : String) :
    ∀ r ∈ (set_last_announced_fp db chatId userId fp).2,
      rowMatches chatId userId r = true →
      r.lastAnnouncedFp = some (pyTake fp 300) := by
  intro r hr hm
  simp only [set_last_announced_fp, List.mem_map] at hr
  obtain ⟨r0, hr0, heq⟩ := hr
  by_cases hc : fpCond chatId userId (pyTake fp 300) r0 = true
  · simp only [if_pos hc] at heq
    simp [← heq]
  · simp only [if_neg hc] at heq
    subst heq
    simp only [fpCond, hm, Bool.true_and, decide_eq_true_eq] at hc
    push_neg at hc
    exact hc.2

/-- If every row of the pair already stores the truncated fingerprint, the
conditional update reports no change and leaves the table unchanged. -/
theorem set_fp_noop (db : ChatMembersTable) (chatId userId : Int) (fp : String)
    (h : ∀ r ∈ db, rowMatches chatId userId r = true →
      r.lastAnnouncedFp = some (pyTake fp 300)) :
    set_last_announced_fp db chatId userId fp = (false, db) := by
  have hcond : ∀ r ∈ db, fpCond chatId userId (pyTake fp 300) r = false := by
    intro r hr
    rcases hmatch : rowMatches chatId userId r with _ | _
    · simp [fpCond, hmatch]
    · have hfp := h r hr hmatch
      simp [fpCond, hmatch, hfp]
  simp only [set_last_announced_fp, Prod.mk.injEq]
  refine ⟨?_, ?_⟩
  · simp only [List.any_eq_false]
    intro r hr
    simp [hcond r hr]
  · have : ∀ r ∈ db,
        (if fpCond chatId userId (pyTake fp 300) r then
          { r with lastAnnouncedFp := some (pyTake fp 300) } else r) = r := by
      intro r hr
      simp [hcond r hr]
    rw [List.map_congr_left this]
    simp

/-- `countP` after replacing an element that did not satisfy the predicate. -/
theorem countP_set_of_old_false {α : Type _} (P : α → Bool) :
    ∀ (l : List α) (i : Nat) (u v : α), l[i]? = some u → P u = false →
      (l.set i v).countP P = l.countP P + (if P v then 1 else 0) := by
  intro l
  induction l with
  | nil => intro i u v h _; simp at h
  | cons a t ih =>
    intro i u v h hu
    cases i with
    | zero =>
      simp only [List.getElem?_cons_zero, Option.some.injEq] at h
      subst h
      simp [List.set, List.countP_cons, hu]
    | succ n =>
      simp only [List.getElem?_cons_succ] at h
      simp only [List.set, List.countP_cons]
      rw [ih n u v h hu]
      omega

/-- **C10**: the persisted guard tier depends only on the first 300
characters of the fingerprint: fingerprints agreeing on that prefix produce
identical conditional updates, and once one of them has been recorded, the
other is suppressed by the persisted tier. -/
theorem persisted_tier_prefix_only (db : ChatMembersTable)
    (chatId userId : Int) (F F' : String)
    (hpre : pyTake F 300 = pyTake F' 300) :
    set_last_announced_fp db chatId userId F
        = set_last_announced_fp db chatId userId F' ∧
      ((set_last_announced_fp db chatId userId F).1 = true →
        (set_last_announced_fp (set_last_announced_fp db chatId userId F).2
            chatId userId F').1 = false) := by
  constructor
  · simp only [set_last_announced_fp]
    rw [hpre]
  · intro _
    have hall : ∀ r ∈ (set_last_announced_fp db chatId userId F).2,
        rowMatches chatId userId r = true →
        r.lastAnnouncedFp = some (pyTake F' 300) := by
      intro r hr hm
      rw [← hpre]
      exact set_fp_allMatching db chatId userId F r hr hm
    rw [set_fp_noop _ chatId userId F' hall]

set_option maxRecDepth 40000 in
/-- Witness for C10 at a concrete table and 301-character fingerprints
sharing a 300-character prefix. -/
theorem persisted_tier_prefix_only_witness :
    pyTake ⟨List.replicate 301 'a'⟩ 300
        = pyTake ⟨List.replicate 300 'a' ++ ['b']⟩ 300 ∧
      (set_last_announced_fp [⟨10, 20, 1, 1, 1, none⟩] 10 20
          ⟨List.replicate 301 'a'⟩
        = set_last_announced_fp [⟨10, 20, 1, 1, 1, none⟩] 10 20
          ⟨List.replicate 300 'a' ++ ['b']⟩ ∧
      ((set_last_announced_fp [⟨10, 20, 1, 1, 1, none⟩] 10 20
          ⟨List.replicate 301 'a'⟩).1 = true →
        (set_last_announced_fp
          (set_last_announced_fp [⟨10, 20, 1, 1, 1, none⟩] 10 20
            ⟨List.replicate 301 'a'⟩).2 10 20
          ⟨List.replicate 300 'a' ++ ['b']⟩).1 = false)) :=
  ⟨by decide,
   persisted_tier_prefix_only [⟨10, 20, 1, 1, 1, none⟩] 10 20
     ⟨List.replicate 301 'a'⟩ ⟨List.replicate 300 'a' ++ ['b']⟩ (by decide)⟩

/-! ### Guard at-most-once under concurrency -/

/-- `guardInv` constrains only the allow count and the table, so replacing a
non-allowed caller phase by another non-allowed one (with any cache)
preserves it. -/
theorem guardInv_setCaller (chatId userId : Int) (F : String) (w : GuardWorld)
    (cache' : AnnounceCache) (i : Nat) (u v : CallerPhase)
    (hget : w.callers[i]? = some u)
    (hu : u = .done true → False) (hv : v = .done true → False)
    (h : guardInv chatId userId F w) :
    guardInv chatId userId F ⟨cache', w.db, w.callers.set i v⟩ := by
  obtain ⟨h1, h2⟩ := h
  have hcount :
      (w.callers.set i v).countP (fun p => decide (p = CallerPhase.done true))
        = w.callers.countP (fun p => decide (p = CallerPhase.done true)) := by
    rw [countP_set_of_old_false _ w.callers i u v hget (decide_eq_false hu)]
    simp [decide_eq_false hv]
  constructor
  · simpa [allowCount, hcount] using h1
  · intro hge
    exact h2 (by simpa [allowCount, hcount] using hge)

/-- One interleaved guard step preserves the at-most-once invariant. -/
theorem guardStep_inv (chatId userId : Int) (F : String) (w : GuardWorld)
    (i : Nat) (now : ℚ) (h : guardInv chatId userId F w) :
    guardInv chatId userId F (guardStep chatId userId F w i now) := by
  unfold guardStep
  cases hget : w.callers[i]? with
  | none => exact h
  | some phase =>
    cases phase with
    | start =>
      dsimp only
      split
      · exact guardInv_setCaller chatId userId F w _ i .start .passedCache hget
          (fun hh => by cases hh) (fun hh => by cases hh) h
      · exact guardInv_setCaller chatId userId F w _ i .start (.done false) hget
          (fun hh => by cases hh) (fun hh => by cases hh) h
    | passedCache =>
      obtain ⟨h1, h2⟩ := h
      dsimp only
      constructor
      · show (w.callers.set i
            (.done (set_last_announced_fp w.db chatId userId F).1)).countP
            (fun p => decide (p = CallerPhase.done true)) ≤ 1
        rw [countP_set_of_old_false _ w.callers i .passedCache _ hget (by decide)]
        by_cases hu : (set_last_announced_fp w.db chatId userId F).1 = true
        · have hc0 : w.callers.countP
              (fun p => decide (p = CallerPhase.done true)) = 0 := by
            by_contra hne
            have hge : 1 ≤ allowCount w := by
              simp only [allowCount]
              omega
            have hno := set_fp_noop w.db chatId userId F (h2 hge)
            rw [hno] at hu
            exact Bool.false_ne_true hu
          simp [hc0, hu]
        · simp only [Bool.not_eq_true] at hu
          have h1' := h1
          simp only [allowCount] at h1'
          simp only [hu]
          simpa using h1'
      · intro _ r hr hm
        exact set_fp_allMatching w.db chatId userId F r hr hm
    | done b => exact h

/-- Any interleaved schedule preserves the at-most-once invariant. -/
theorem guardRun_inv (chatId userId : Int) (F : String) :
    ∀ (sched : List (Nat × ℚ)) (w : GuardWorld),
      guardInv chatId userId F w →
      guardInv chatId userId F (guardRun chatId userId F w sched) := by
  intro sched
  induction sched with
  | nil => intro w h; exact h
  | cons s rest ih =>
    intro w h
    exact ih _ (guardStep_inv chatId userId F w s.1 s.2 h)

/-- **C1**: guard at-most-once.  For a pair whose Membership row exists with
a stored last-announced fingerprint different from `F`, any interleaving of
any number of concurrent `guard(c, e, F)` calls with identical `F` produces
at most one allow: every other call is suppressed (by the local TTL cache or
by the conditional update finding the stored fingerprint already equal). -/
theorem guard_at_most_once (chatId userId : Int) (F : String)
    (cache : AnnounceCache) (db : ChatMembersTable) (n : Nat)
    (sched : List (Nat × ℚ)) (r : ChatMemberRow)
    (hrow : db.find? (rowMatches chatId userId) = some r)
    (hne : r.lastAnnouncedFp ≠ some F) :
    allowCount (guardRun chatId userId F
      ⟨cache, db, List.replicate n .start⟩ sched) ≤ 1 := by
  have h0 : guardInv chatId userId F ⟨cache, db, List.replicate n .start⟩ := by
    have hz : allowCount ⟨cache, db, List.replicate n .start⟩ = 0 := by
      simp only [allowCount]
      rw [List.countP_eq_zero]
      intro a ha
      rw [List.eq_of_mem_replicate ha]
      decide
    exact ⟨by omega, fun hge => by omega⟩
  exact (guardRun_inv chatId userId F sched _ h0).1

/-- Witness for C1: two callers racing on the same pair and fingerprint,
interleaved cache-step first, both reaching the persisted tier. -/
theorem guard_at_most_once_witness :
    ([⟨1, 2, 0, 0, 0, none⟩] : ChatMembersTable).find? (rowMatches 1 2)
        = some ⟨1, 2, 0, 0, 0, none⟩ ∧
      (⟨1, 2, 0, 0, 0, none⟩ : ChatMemberRow).lastAnnouncedFp ≠ some "F" ∧
      allowCount (guardRun 1 2 "F"
        ⟨[], [⟨1, 2, 0, 0, 0, none⟩], List.replicate 2 .start⟩
        [(0, 0), (1, 300), (0, 300), (1, 300)]) ≤ 1 :=
  ⟨by decide, by decide,
   guard_at_most_once 1 2 "F" [] [⟨1, 2, 0, 0, 0, none⟩] 2
     [(0, 0), (1, 300), (0, 300), (1, 300)] ⟨1, 2, 0, 0, 0, none⟩
     (by decide) (by decide)⟩

/-! ### Guard re-arms on change -/

/-- Entries surviving `lruRemove` never carry the removed key. -/
theorem lruRemove_no_key (c : AnnounceCache) (k : GKey) :
    ∀ p ∈ lruRemove c k, ¬(p.1 = k) := by
  intro p hp
  simp only [lruRemove, List.mem_filter] at hp
  simpa using hp.2

/-- Appending an entry for a key absent from the list makes it the lookup
result. -/
theorem lruLookup_append_key (l : AnnounceCache) (k : GKey) (e : CacheEntry)
    (h : ∀ p ∈ l, ¬(p.1 = k)) : lruLookup (l ++ [(k, e)]) k = some e := by
  unfold lruLookup
  rw [List.find?_append]
  have hnone : l.find? (fun p => decide (p.1 = k)) = none := by
    rw [List.find?_eq_none]
    intro p hp
    simpa using h p hp
  rw [hnone]
  simp

/-- `_LRU.set` leaves the written entry retrievable: capacity eviction pops
the least recently used entry, never the one just written. -/
theorem lruLookup_lruSet_self (c : AnnounceCache) (k : GKey) (e : CacheEntry) :
    lruLookup (lruSet c k e) k = some e := by
  unfold lruSet
  by_cases hlen : maxEntries < (lruRemove c k ++ [(k, e)]).length
  · rw [if_pos hlen]
    rcases hrem : lruRemove c k with _ | ⟨x, xs⟩
    · rw [hrem] at hlen
      simp [maxEntries] at hlen
    · simp only [List.cons_append, List.drop_succ_cons, List.drop_zero]
      apply lruLookup_append_key
      intro p hp
      exact lruRemove_no_key c k p (by rw [hrem]; exact List.mem_cons_of_mem _ hp)
  · rw [if_neg hlen]
    exact lruLookup_append_key _ k e (lruRemove_no_key c k)

/-- `should_announce` on a cache miss records the fingerprint and falls
through to the persisted tier. -/
theorem should_announce_miss (cache : AnnounceCache) (chatId userId : Int)
    (fp : String) (ttl now : ℚ)
    (h : lruLookup cache (chatId, userId) = none) :
    should_announce cache chatId userId fp ttl now
      = (true, lruSet cache (chatId, userId) ⟨fp, now⟩) := by
  simp [should_announce, lruGetMove, h]

/-- `should_announce` with a cached *different* fingerprint falls through,
whatever the entry's age. -/
theorem should_announce_diff (cache : AnnounceCache) (chatId userId : Int)
    (fp : String) (ttl now : ℚ) (e : CacheEntry)
    (h : lruLookup cache (chatId, userId) = some e) (hfp : ¬(e.fp = fp)) :
    should_announce cache chatId userId fp ttl now
      = (true,
         lruSet (lruRemove cache (chatId, userId) ++ [((chatId, userId), e)])
           (chatId, userId) ⟨fp, now⟩) := by
  simp [should_announce, lruGetMove, h, hfp]

/-- A row of the pair whose stored fingerprint is null or different makes
the conditional update report a change. -/
theorem set_fp_changed (db : ChatMembersTable) (chatId userId : Int)
    (fp : String) (r : ChatMemberRow) (hr : r ∈ db)
    (hm : rowMatches chatId userId r = true)
    (hne : r.lastAnnouncedFp = none ∨ r.lastAnnouncedFp ≠ some (pyTake fp 300)) :
    (set_last_announced_fp db chatId userId fp).1 = true := by
  simp only [set_last_announced_fp, List.any_eq_true]
  refine ⟨r, hr, ?_⟩
  simp only [fpCond, hm, Bool.true_and, decide_eq_true_eq]
  exact hne

/-- The conditional update never deletes the pair's row. -/
theorem set_fp_keeps_row (db : ChatMembersTable) (chatId userId : Int)
    (fp : String) (r : ChatMemberRow) (hr : r ∈ db)
    (hm : rowMatches chatId userId r = true) :
    ∃ r', r' ∈ (set_last_announced_fp db chatId userId fp).2 ∧
      rowMatches chatId userId r' = true := by
  simp only [set_last_announced_fp]
  have hmem := List.mem_map_of_mem
    (fun r => if fpCond chatId userId (pyTake fp 300) r then
      { r with lastAnnouncedFp := some (pyTake fp 300) } else r) hr
  by_cases hc : fpCond chatId userId (pyTake fp 300) r = true
  · refine ⟨{ r with lastAnnouncedFp := some (pyTake fp 300) }, ?_, hm⟩
    simpa only [if_pos hc] using hmem
  · refine ⟨r, ?_, hm⟩
    simpa only [if_neg hc] using hmem

/-- **C2**: guard re-arms on change.  Starting from a Membership row with no
previously announced fingerprint and no local cache entry for the pair, the
sequence `guard(c,e,a)`, `guard(c,e,b)`, `guard(c,e,a)` (with the two
fingerprints differing within the stored 300-character prefix) allows all
three calls, even when all three happen inside one TTL window: suppression
compares only against the most recently announced fingerprint. -/
theorem guard_rearms_on_change (chatId userId : Int) (a b : String)
    (cache : AnnounceCache) (db : ChatMembersTable) (r : ChatMemberRow)
    (ttl t1 t2 t3 : ℚ)
    (hkey : lruLookup cache (chatId, userId) = none)
    (hrow : db.find? (rowMatches chatId userId) = some r)
    (hnull : r.lastAnnouncedFp = none)
    (hab : pyTake a 300 ≠ pyTake b 300)
    (h12 : t1 ≤ t2) (h23 : t2 ≤ t3) (hwin : t3 - t1 < ttl) :
    guardTriple cache db chatId userId a b ttl t1 t2 t3 = (true, true, true) := by
  have hr_mem : r ∈ db := List.mem_of_find?_eq_some hrow
  have hr_match : rowMatches chatId userId r = true := List.find?_some hrow
  have hba : ¬(a = b) := fun hh => hab (by rw [hh])
  -- call 1: cache miss, conditional update flips NULL → a[:300]
  have e1 : should_announce_persisted cache db chatId userId a ttl t1
      = ((set_last_announced_fp db chatId userId a).1,
         lruSet cache (chatId, userId) ⟨a, t1⟩,
         (set_last_announced_fp db chatId userId a).2) := by
    simp [should_announce_persisted,
      should_announce_miss cache chatId userId a ttl t1 hkey]
  have hchg1 : (set_last_announced_fp db chatId userId a).1 = true :=
    set_fp_changed db chatId userId a r hr_mem hr_match (Or.inl hnull)
  -- the pair's row after call 1 stores a[:300]
  obtain ⟨r1, hr1_mem, hr1_match⟩ :=
    set_fp_keeps_row db chatId userId a r hr_mem hr_match
  have hr1_fp : r1.lastAnnouncedFp = some (pyTake a 300) :=
    set_fp_allMatching db chatId userId a r1 hr1_mem hr1_match
  -- call 2: cached fingerprint differs, conditional update flips to b[:300]
  have hl1 : lruLookup (lruSet cache (chatId, userId) ⟨a, t1⟩) (chatId, userId)
      = some ⟨a, t1⟩ := lruLookup_lruSet_self cache (chatId, userId) ⟨a, t1⟩
  have e2 : should_announce_persisted (lruSet cache (chatId, userId) ⟨a, t1⟩)
      (set_last_announced_fp db chatId userId a).2 chatId userId b ttl t2
      = ((set_last_announced_fp (set_last_announced_fp db chatId userId a).2
            chatId userId b).1,
         lruSet (lruRemove (lruSet cache (chatId, userId) ⟨a, t1⟩)
             (chatId, userId) ++ [((chatId, userId), ⟨a, t1⟩)])
           (chatId, userId) ⟨b, t2⟩,
         (set_last_announced_fp (set_last_announced_fp db chatId userId a).2
            chatId userId b).2) := by
    simp [should_announce_persisted,
      should_announce_diff _ chatId userId b ttl t2 ⟨a, t1⟩ hl1 hba]
  have hchg2 : (set_last_announced_fp (set_last_announced_fp db chatId userId a).2
      chatId userId b).1 = true :=
    set_fp_changed _ chatId userId b r1 hr1_mem hr1_match
      (Or.inr (by rw [hr1_fp]; exact fun hh => hab (Option.some.inj hh)))
  -- the pair's row after call 2 stores b[:300]
  obtain ⟨r2, hr2_mem, hr2_match⟩ :=
    set_fp_keeps_row _ chatId userId b r1 hr1_mem hr1_match
  have hr2_fp : r2.lastAnnouncedFp = some (pyTake b 300) :=
    set_fp_allMatching _ chatId userId b r2 hr2_mem hr2_match
  -- call 3: cached fingerprint differs again, update flips back to a[:300]
  have hl2 : lruLookup
      (lruSet (lruRemove (lruSet cache (chatId, userId) ⟨a, t1⟩)
          (chatId, userId) ++ [((chatId, userId), ⟨a, t1⟩)])
        (chatId, userId) ⟨b, t2⟩) (chatId, userId) = some ⟨b, t2⟩ :=
    lruLookup_lruSet_self _ (chatId, userId) ⟨b, t2⟩
  have e3 : should_announce_persisted
      (lruSet (lruRemove (lruSet cache (chatId, userId) ⟨a, t1⟩)
          (chatId, userId) ++ [((chatId, userId), ⟨a, t1⟩)])
        (chatId, userId) ⟨b, t2⟩)
      (set_last_announced_fp (set_last_announced_fp db chatId userId a).2
          chatId userId b).2 chatId userId a ttl t3
      = ((set_last_announced_fp
            (set_last_announced_fp (set_last_announced_fp db chatId userId a).2
              chatId userId b).2 chatId userId a).1,
         lruSet (lruRemove
             (lruSet (lruRemove (lruSet cache (chatId, userId) ⟨a, t1⟩)
                 (chatId, userId) ++ [((chatId, userId), ⟨a, t1⟩)])
               (chatId, userId) ⟨b, t2⟩)
             (chatId, userId) ++ [((chatId, userId), ⟨b, t2⟩)])
           (chatId, userId) ⟨a, t3⟩,
         (set_last_announced_fp
            (set_last_announced_fp (set_last_announced_fp db chatId userId a).2
              chatId userId b).2 chatId userId a).2) := by
    simp [should_announce_persisted,
      should_announce_diff _ chatId userId a ttl t3 ⟨b, t2⟩ hl2
        (fun hh => hba hh.symm)]
  have hchg3 : (set_last_announced_fp
      (set_last_announced_fp (set_last_announced_fp db chatId userId a).2
        chatId userId b).2 chatId userId a).1 = true :=
    set_fp_changed _ chatId userId a r2 hr2_mem hr2_match
      (Or.inr (by rw [hr2_fp]; exact fun hh => hab (Option.some.inj hh).symm))
  simp only [guardTriple, e1, e2, e3, hchg1, hchg2, hchg3]

/-- Witness for C2 at a fresh pair with fingerprints `"A"`, `"B"`, `"A"`
inside one 300-second window. -/
theorem guard_rearms_on_change_witness :
    lruLookup [] ((1 : Int), (2 : Int)) = none ∧
      ([⟨1, 2, 0, 0, 0, none⟩] : ChatMembersTable).find? (rowMatches 1 2)
        = some ⟨1, 2, 0, 0, 0, none⟩ ∧
      (⟨1, 2, 0, 0, 0, none⟩ : ChatMemberRow).lastAnnouncedFp = none ∧
      pyTake "A" 300 ≠ pyTake "B" 300 ∧
      guardTriple [] [⟨1, 2, 0, 0, 0, none⟩] 1 2 "A" "B" 300 0 1 2
        = (true, true, true) :=
  ⟨by decide, by decide, by decide, by decide,
   guard_rearms_on_change 1 2 "A" "B" [] [⟨1, 2, 0, 0, 0, none⟩]
     ⟨1, 2, 0, 0, 0, none⟩ 300 0 1 2 (by decide) (by decide) (by decide)
     (by decide) (by norm_num) (by norm_num) (by norm_num)⟩

/-! ### Welcome dedup -/

/-- `dropWhile` over a list containing an unexpired entry stops no later
than that entry. -/
theorem dropWhile_append_cons_of_neg {α : Type _} (p : α → Bool) (x : α)
    (hx : p x = false) :
    ∀ (pre post : List α),
      (pre ++ x :: post).dropWhile p = pre.dropWhile p ++ x :: post := by
  intro pre
  induction pre with
  | nil =>
    intro post
    simp only [List.nil_append, List.dropWhile_nil]
    rw [List.dropWhile_cons_of_neg]
    simp [hx]
  | cons a t ih =>
    intro post
    by_cases ha : p a = true
    · simp only [List.cons_append, List.dropWhile_cons_of_pos ha]
      exact ih post
    · have ha' : p a = false := by simpa using ha
      simp only [List.cons_append]
      rw [List.dropWhile_cons_of_neg (by simp [ha']),
        List.dropWhile_cons_of_neg (by simp [ha'])]
      simp

/-- A welcome-guard lookup over a split with the key only in the middle. -/
theorem wgLookup_split (k : GKey) (t0 : ℚ) (pre post : WelcomeGuard)
    (hpre : ∀ p ∈ pre, ¬(p.1 = k)) :
    wgLookup (pre ++ (k, t0) :: post) k = some t0 := by
  unfold wgLookup
  rw [List.find?_append]
  have hnone : pre.find? (fun p => decide (p.1 = k)) = none := by
    rw [List.find?_eq_none]
    intro p hp
    simpa using hpre p hp
  rw [hnone]
  rw [List.find?_cons_of_pos _ (by simp)]
  simp

/-- Cleanup never introduces an entry for a key that was absent. -/
theorem wgLookup_cleanup_none (g : WelcomeGuard) (now ttl : ℚ) (k : GKey)
    (h : wgLookup g k = none) :
    wgLookup (welcomeCleanup g now ttl) k = none := by
  unfold wgLookup welcomeCleanup at *
  rcases hfind : (g.dropWhile (fun p => decide (now - p.2 > ttl))).find?
      (fun p => decide (p.1 = k)) with _ | p
  · simp [hfind]
  · exfalso
    have hp := List.find?_some hfind
    have hmem : p ∈ g :=
      (List.dropWhile_sublist _).mem (List.mem_of_find?_eq_some hfind)
    rcases hgf : g.find? (fun p => decide (p.1 = k)) with _ | q
    · rw [List.find?_eq_none] at hgf
      exact hgf p hmem hp
    · simp [hgf] at h

/-- After the first welcome for a pair, every further call inside the TTL
window is suppressed: the guard keeps the entry (cleanup stops before it,
suppressed calls write nothing). -/
theorem welcomeSeq_all_false (chatId userId : Int) (ttl t0 : ℚ) :
    ∀ (rest : List ℚ) (pre post : WelcomeGuard),
      (∀ p ∈ pre, ¬(p.1 = (chatId, userId))) →
      (∀ p ∈ post, ¬(p.1 = (chatId, userId))) →
      (∀ t ∈ rest, t - t0 < ttl) →
      welcomeSeq (pre ++ ((chatId, userId), t0) :: post) chatId userId ttl rest
        = rest.map (fun _ => false) := by
  intro rest
  induction rest with
  | nil => intro pre post _ _ _; rfl
  | cons t rts ih =>
    intro pre post hpre hpost hwin
    have hfresh : ¬(t - t0 > ttl) := by
      have := hwin t (List.mem_cons_self t rts)
      exact fun hgt => absurd this (not_lt.mpr (le_of_lt hgt))
    have hclean : welcomeCleanup (pre ++ ((chatId, userId), t0) :: post) t ttl
        = pre.dropWhile (fun p => decide (t - p.2 > ttl)) ++
          ((chatId, userId), t0) :: post := by
      unfold welcomeCleanup
      exact dropWhile_append_cons_of_neg (fun p => decide (t - p.2 > ttl))
        ((chatId, userId), t0) (decide_eq_false hfresh) pre post
    have hpre' : ∀ p ∈ pre.dropWhile (fun p => decide (t - p.2 > ttl)),
        ¬(p.1 = (chatId, userId)) := by
      intro p hp
      exact hpre p ((List.dropWhile_sublist _).mem hp)
    have hlook := wgLookup_split (chatId, userId) t0
      (pre.dropWhile (fun p => decide (t - p.2 > ttl))) post hpre'
    have hstep : should_welcome (pre ++ ((chatId, userId), t0) :: post)
        chatId userId t ttl
        = (false, pre.dropWhile (fun p => decide (t - p.2 > ttl)) ++
            ((chatId, userId), t0) :: post) := by
      simp only [should_welcome, hclean, hlook]
      rw [if_pos (hwin t (List.mem_cons_self t rts))]
    simp only [welcomeSeq, hstep, List.map_cons]
    exact congrArg (List.cons false)
      (ih _ post hpre' hpost (fun s hs => hwin s (List.mem_cons_of_mem t hs)))

/-- **C9**: welcome dedup.  For a pair with no current guard entry, a first
join notification at `t0` welcomes, and every further notification for the
same pair within the TTL window is suppressed — exactly one welcome. -/
theorem welcome_dedup_once (chatId userId : Int) (g : WelcomeGuard)
    (ttl t0 : ℚ) (rest : List ℚ)
    (hkey : wgLookup g (chatId, userId) = none)
    (hwin : ∀ t ∈ rest, t - t0 < ttl) :
    welcomeSeq g chatId userId ttl (t0 :: rest)
      = true :: rest.map (fun _ => false) := by
  have h1 : wgLookup (welcomeCleanup g t0 ttl) (chatId, userId) = none :=
    wgLookup_cleanup_none g t0 ttl (chatId, userId) hkey
  -- the marked guard splits as `pre ++ entry :: []` with no key in `pre`
  have hfil : ∀ p ∈ (welcomeCleanup g t0 ttl).filter
      (fun p => !decide (p.1 = (chatId, userId))), ¬(p.1 = (chatId, userId)) := by
    intro p hp
    have := (List.mem_filter.mp hp).2
    simpa using this
  have hstep1 : should_welcome g chatId userId t0 ttl
      = wgMark (welcomeCleanup g t0 ttl) (chatId, userId) t0 := by
    simp only [should_welcome, h1]
  rcases hshape : (welcomeCleanup g t0 ttl).filter
      (fun p => !decide (p.1 = (chatId, userId))) with _ | ⟨y, ys⟩
  · -- no other entries: the marked guard is exactly `[entry]`
    have hmark_eq : wgMark (welcomeCleanup g t0 ttl) (chatId, userId) t0
        = (true, [((chatId, userId), t0)]) := by
      simp only [wgMark, hshape]
      simp [welcomeGuardMax]
    simp only [welcomeSeq, hstep1, hmark_eq]
    have := welcomeSeq_all_false chatId userId ttl t0 rest [] []
      (by intro p hp; cases hp) (by intro p hp; cases hp) hwin
    simpa using this
  · by_cases hcap : welcomeGuardMax < ((y :: ys) ++ [((chatId, userId), t0)]).length
    · -- over capacity: the oldest entry `y` is evicted, the new entry stays
      have hmark_eq : wgMark (welcomeCleanup g t0 ttl) (chatId, userId) t0
          = (true, ys ++ [((chatId, userId), t0)]) := by
        simp only [wgMark, hshape]
        rw [if_pos hcap]
        simp
      simp only [welcomeSeq, hstep1, hmark_eq]
      have hys : ∀ p ∈ ys, ¬(p.1 = (chatId, userId)) := by
        intro p hp
        exact hfil p (by rw [hshape]; exact List.mem_cons_of_mem y hp)
      have := welcomeSeq_all_false chatId userId ttl t0 rest ys []
        hys (by intro p hp; cases hp) hwin
      simpa using this
    · have hmark_eq : wgMark (welcomeCleanup g t0 ttl) (chatId, userId) t0
          = (true, (y :: ys) ++ [((chatId, userId), t0)]) := by
        simp only [wgMark, hshape]
        rw [if_neg hcap]
      simp only [welcomeSeq, hstep1, hmark_eq]
      have hyys : ∀ p ∈ y :: ys, ¬(p.1 = (chatId, userId)) := by
        intro p hp
        exact hfil p (by rw [hshape]; exact hp)
      have := welcomeSeq_all_false chatId userId ttl t0 rest (y :: ys) []
        hyys (by intro p hp; cases hp) hwin
      simpa using this

/-- Witness for C9: two join events for one pair two seconds apart inside
the 30-second window welcome exactly once. -/
theorem welcome_dedup_once_witness :
    wgLookup [] ((5 : Int), (7 : Int)) = none ∧
      (∀ t ∈ [(2 : ℚ)], t - 0 < (30 : ℚ)) ∧
      welcomeSeq [] 5 7 30 [0, 2] = [true, false] :=
  ⟨by decide, by norm_num,
   welcome_dedup_once 5 7 [] 30 0 [2] (by decide) (by norm_num)⟩

/-! ### Snapshot dedup with monotone timestamps -/

/-- Bumping a row's timestamp never changes its canonical key. -/
theorem sameKey_bumpRow (uid : Int) (fn ln un : String) (t : Nat) (r : NameRow) :
    sameKey uid fn ln un (bumpRow uid fn ln un t r) = sameKey uid fn ln un r := by
  unfold bumpRow
  by_cases h : sameKey uid fn ln un r = true
  · rw [if_pos h]
    rfl
  · rw [if_neg h]

/-- Bumping a row of a different canonical tuple is the identity. -/
theorem bumpRow_not (uid : Int) (fn ln un : String) (t : Nat) (r : NameRow)
    (h : sameKey uid fn ln un r = false) : bumpRow uid fn ln un t r = r := by
  simp [bumpRow, h]

/-- Timestamp bumps commute. -/
theorem bumpRow_comm (uid : Int) (fn ln un : String) (t1 t2 : Nat) (r : NameRow) :
    bumpRow uid fn ln un t2 (bumpRow uid fn ln un t1 r)
      = bumpRow uid fn ln un t1 (bumpRow uid fn ln un t2 r) := by
  by_cases h : sameKey uid fn ln un r = true
  · have h1 : sameKey uid fn ln un { r with seenAt := max r.seenAt t1 } = true := h
    have h2 : sameKey uid fn ln un { r with seenAt := max r.seenAt t2 } = true := h
    simp only [bumpRow, if_pos h, if_pos h1, if_pos h2]
    have hmax : max (max r.seenAt t1) t2 = max (max r.seenAt t2) t1 := by omega
    simp [hmax]
  · have h' : sameKey uid fn ln un r = false := by simpa using h
    have e1 := bumpRow_not uid fn ln un t1 r h'
    have e2 := bumpRow_not uid fn ln un t2 r h'
    simp [e1, e2]

/-- A repeated bump with the same timestamp is absorbed. -/
theorem bumpRow_idem (uid : Int) (fn ln un : String) (t : Nat) (r : NameRow) :
    bumpRow uid fn ln un t (bumpRow uid fn ln un t r)
      = bumpRow uid fn ln un t r := by
  by_cases h : sameKey uid fn ln un r = true
  · have h1 : sameKey uid fn ln un { r with seenAt := max r.seenAt t } = true := h
    simp only [bumpRow, if_pos h, if_pos h1]
    have hmax : max (max r.seenAt t) t = max r.seenAt t := by omega
    simp [hmax]
  · have h' : sameKey uid fn ln un r = false := by simpa using h
    rw [bumpRow_not _ _ _ _ _ _ h', bumpRow_not _ _ _ _ _ _ h']

/-- A freshly inserted row matches its own canonical key. -/
theorem sameKey_self (uid : Int) (fn ln un : String) (n t : Nat) :
    sameKey uid fn ln un ⟨n, uid, fn, ln, un, t⟩ = true := by
  simp [sameKey]

/-- The duplicate-key update preserves which rows match the key. -/
theorem any_map_bumpRow (uid : Int) (fn ln un : String) (t : Nat) :
    ∀ l : List NameRow,
      (l.map (bumpRow uid fn ln un t)).any (sameKey uid fn ln un)
        = l.any (sameKey uid fn ln un) := by
  intro l
  induction l with
  | nil => rfl
  | cons a l ih => simp only [List.map_cons, List.any_cons, sameKey_bumpRow, ih]

/-- The duplicate-key update commutes with filtering by the key. -/
theorem filter_map_bumpRow (uid : Int) (fn ln un : String) (t : Nat) :
    ∀ l : List NameRow,
      (l.map (bumpRow uid fn ln un t)).filter (sameKey uid fn ln un)
        = (l.filter (sameKey uid fn ln un)).map (bumpRow uid fn ln un t) := by
  intro l
  induction l with
  | nil => rfl
  | cons a l ih =>
    by_cases h : sameKey uid fn ln un a = true
    · simp [List.filter_cons, h, sameKey_bumpRow, ih]
    · simp [List.filter_cons, h, sameKey_bumpRow, ih]

/-- The duplicate-key update is the identity on a list without the key. -/
theorem map_bumpRow_id (uid : Int) (fn ln un : String) (t : Nat)
    (l : List NameRow) (h : l.any (sameKey uid fn ln un) = false) :
    l.map (bumpRow uid fn ln un t) = l := by
  have hall : ∀ r ∈ l, sameKey uid fn ln un r = false := by
    rw [List.any_eq_false] at h
    intro r hr
    simpa using h r hr
  have : ∀ r ∈ l, bumpRow uid fn ln un t r = r := fun r hr =>
    bumpRow_not uid fn ln un t r (hall r hr)
  rw [List.map_congr_left this]
  simp

/-- The duplicate-key update never decreases a timestamp. -/
theorem forall₂_le_map_bumpRow (uid : Int) (fn ln un : String) (t : Nat) :
    ∀ l : List NameRow,
      List.Forall₂ (fun r r' => r.seenAt ≤ r'.seenAt) l
        (l.map (bumpRow uid fn ln un t)) := by
  intro l
  induction l with
  | nil => simp
  | cons a l ih =>
    refine List.Forall₂.cons ?_ ih
    by_cases h : sameKey uid fn ln un a = true
    · simp only [bumpRow, if_pos h]
      omega
    · simp only [bumpRow, if_neg h]
      omega

/-- **C5**: snapshot dedup with monotone timestamps.  Recording the same
canonical tuple twice (timestamps `t1`, `t2`) into a table without it leaves
exactly one row for the tuple, timestamped `max t1 t2`; the two recordings
commute; recording twice with one timestamp equals recording once; and
re-recording an existing tuple never adds a row and never decreases any
stored timestamp. -/
theorem snapshot_dedup_monotone (tbl : NamesTable) (uid : Int)
    (f1 l1 u1 f2 l2 u2 : Option String) (t1 t2 : Nat)
    (hf : sanitize_name f1 = sanitize_name f2)
    (hl : sanitize_name l1 = sanitize_name l2)
    (hu : sanitize_name u1 = sanitize_name u2)
    (hfresh : countKey tbl uid (pyTake (sanitize_name f1) 64)
      (pyTake (sanitize_name l1) 64) (pyTake (sanitize_name u1) 32) = 0) :
    countKey (insert_name_snapshot_if_new
        (insert_name_snapshot_if_new tbl uid f1 l1 u1 t1) uid f2 l2 u2 t2)
        uid (pyTake (sanitize_name f1) 64) (pyTake (sanitize_name l1) 64)
        (pyTake (sanitize_name u1) 32) = 1
      ∧ seenAtOf (insert_name_snapshot_if_new
          (insert_name_snapshot_if_new tbl uid f1 l1 u1 t1) uid f2 l2 u2 t2)
          uid (pyTake (sanitize_name f1) 64) (pyTake (sanitize_name l1) 64)
          (pyTake (sanitize_name u1) 32) = some (max t1 t2)
      ∧ (∀ tb : NamesTable,
          insert_name_snapshot_if_new
              (insert_name_snapshot_if_new tb uid f1 l1 u1 t1) uid f2 l2 u2 t2
            = insert_name_snapshot_if_new
              (insert_name_snapshot_if_new tb uid f2 l2 u2 t2) uid f1 l1 u1 t1)
      ∧ (∀ (tb : NamesTable) (t : Nat),
          insert_name_snapshot_if_new
              (insert_name_snapshot_if_new tb uid f1 l1 u1 t) uid f2 l2 u2 t
            = insert_name_snapshot_if_new tb uid f1 l1 u1 t)
      ∧ (∀ (tb : NamesTable) (t : Nat),
          tb.rows.any (sameKey uid (pyTake (sanitize_name f1) 64)
              (pyTake (sanitize_name l1) 64) (pyTake (sanitize_name u1) 32))
              = true →
            (insert_name_snapshot_if_new tb uid f1 l1 u1 t).rows.length
                = tb.rows.length
              ∧ List.Forall₂ (fun r r' => r.seenAt ≤ r'.seenAt) tb.rows
                (insert_name_snapshot_if_new tb uid f1 l1 u1 t).rows) := by
  obtain ⟨fn, ln, un, hfn, hln, hun⟩ :
      ∃ fn ln un, fn = pyTake (sanitize_name f1) 64
        ∧ ln = pyTake (sanitize_name l1) 64 ∧ un = pyTake (sanitize_name u1) 32 :=
    ⟨_, _, _, rfl, rfl, rfl⟩
  have insEq2 : ∀ (tb : NamesTable) (t : Nat),
      insert_name_snapshot_if_new tb uid f2 l2 u2 t
        = insert_name_snapshot_if_new tb uid f1 l1 u1 t := by
    intro tb t
    simp only [insert_name_snapshot_if_new]
    rw [← hf, ← hl, ← hu]
  have ins1 : ∀ (tb : NamesTable) (t : Nat),
      insert_name_snapshot_if_new tb uid f1 l1 u1 t
        = if tb.rows.any (sameKey uid fn ln un) then
            { tb with rows := tb.rows.map (bumpRow uid fn ln un t) }
          else
            { rows := tb.rows ++ [⟨tb.nextId, uid, fn, ln, un, t⟩],
              nextId := tb.nextId + 1 } := by
    intro tb t
    simp only [insert_name_snapshot_if_new, hfn, hln, hun]
  have hfresh' : tbl.rows.any (sameKey uid fn ln un) = false := by
    rw [List.any_eq_false]
    intro r hr
    simp only [countKey, ← hfn, ← hln, ← hun] at hfresh
    have hnil := List.length_eq_zero.mp hfresh
    rw [List.filter_eq_nil_iff] at hnil
    exact hnil r hr
  have hall : ∀ r ∈ tbl.rows, sameKey uid fn ln un r = false := by
    have h2 := hfresh'
    rw [List.any_eq_false] at h2
    intro r hr
    simpa using h2 r hr
  -- shape of the table after the two inserts
  have e1 : insert_name_snapshot_if_new tbl uid f1 l1 u1 t1
      = { rows := tbl.rows ++ [⟨tbl.nextId, uid, fn, ln, un, t1⟩],
          nextId := tbl.nextId + 1 } := by
    rw [ins1, if_neg (by simp [hfresh'])]
  have hany1 : (tbl.rows ++ [(⟨tbl.nextId, uid, fn, ln, un, t1⟩ : NameRow)]).any
      (sameKey uid fn ln un) = true := by
    rw [List.any_append]
    simp [sameKey_self]
  have e2 : insert_name_snapshot_if_new
      (insert_name_snapshot_if_new tbl uid f1 l1 u1 t1) uid f2 l2 u2 t2
      = { rows := tbl.rows.map (bumpRow uid fn ln un t2)
            ++ [⟨tbl.nextId, uid, fn, ln, un, max t1 t2⟩],
          nextId := tbl.nextId + 1 } := by
    rw [insEq2, e1, ins1]
    rw [if_pos (by simpa using hany1)]
    have hb : bumpRow uid fn ln un t2 ⟨tbl.nextId, uid, fn, ln, un, t1⟩
        = ⟨tbl.nextId, uid, fn, ln, un, max t1 t2⟩ := by
      simp [bumpRow, sameKey_self]
    simp [hb]
  refine ⟨?_, ?_, ?_, ?_, ?_⟩
  · -- exactly one row for the tuple
    rw [e2]
    simp only [countKey, ← hfn, ← hln, ← hun] at hfresh ⊢
    rw [List.filter_append, List.length_append, filter_map_bumpRow]
    have hone : List.filter (sameKey uid fn ln un)
        [(⟨tbl.nextId, uid, fn, ln, un, max t1 t2⟩ : NameRow)]
        = [⟨tbl.nextId, uid, fn, ln, un, max t1 t2⟩] := by
      simp [List.filter_cons, sameKey_self]
    rw [hone]
    have hzero : tbl.rows.filter (sameKey uid fn ln un) = [] := by
      rw [List.filter_eq_nil_iff]
      intro r hr
      simp [hall r hr]
    rw [hzero]
    simp
  · -- its timestamp is the max
    rw [e2]
    simp only [seenAtOf, ← hfn, ← hln, ← hun]
    rw [List.find?_append]
    have hnone : (tbl.rows.map (bumpRow uid fn ln un t2)).find?
        (sameKey uid fn ln un) = none := by
      rw [List.find?_eq_none]
      intro r hr
      obtain ⟨r0, hr0, rfl⟩ := List.mem_map.mp hr
      simp [sameKey_bumpRow, hall r0 hr0]
    rw [hnone]
    rw [List.find?_cons_of_pos _ (sameKey_self uid fn ln un tbl.nextId (max t1 t2))]
    simp
  · -- the two recordings commute
    intro tb
    rw [insEq2, insEq2]
    by_cases h : tb.rows.any (sameKey uid fn ln un) = true
    · have b1 := ins1 tb t1
      have b2 := ins1 tb t2
      rw [if_pos h] at b1 b2
      rw [b1, b2, ins1, ins1]
      rw [if_pos (by rw [any_map_bumpRow]; exact h),
        if_pos (by rw [any_map_bumpRow]; exact h)]
      have : (tb.rows.map (bumpRow uid fn ln un t1)).map (bumpRow uid fn ln un t2)
          = (tb.rows.map (bumpRow uid fn ln un t2)).map (bumpRow uid fn ln un t1) := by
        rw [List.map_map, List.map_map]
        exact List.map_congr_left (fun r _ => bumpRow_comm uid fn ln un t1 t2 r)
      simp [this]
    · have h' : tb.rows.any (sameKey uid fn ln un) = false := by simpa using h
      have b1 := ins1 tb t1
      have b2 := ins1 tb t2
      rw [if_neg (by simp [h'])] at b1 b2
      rw [b1, b2, ins1, ins1]
      have ha : ∀ t t' : Nat,
          ((tb.rows ++ [(⟨tb.nextId, uid, fn, ln, un, t⟩ : NameRow)]).any
            (sameKey uid fn ln un)) = true := by
        intro t t'
        rw [List.any_append]
        simp [sameKey_self]
      rw [if_pos (ha t1 t2), if_pos (ha t2 t1)]
      have hid : ∀ t : Nat, tb.rows.map (bumpRow uid fn ln un t) = tb.rows :=
        fun t => map_bumpRow_id uid fn ln un t tb.rows h'
      have hb : ∀ t t' : Nat,
          bumpRow uid fn ln un t' ⟨tb.nextId, uid, fn, ln, un, t⟩
            = ⟨tb.nextId, uid, fn, ln, un, max t t'⟩ := by
        intro t t'
        simp [bumpRow, sameKey_self]
      simp only [List.map_append, hid, List.map_cons, List.map_nil, hb]
      have : max t1 t2 = max t2 t1 := by omega
      simp [this]
  · -- recording twice with one timestamp is recording once
    intro tb t
    rw [insEq2]
    by_cases h : tb.rows.any (sameKey uid fn ln un) = true
    · have b1 := ins1 tb t
      rw [if_pos h] at b1
      rw [b1, ins1]
      rw [if_pos (by rw [any_map_bumpRow]; exact h)]
      have : (tb.rows.map (bumpRow uid fn ln un t)).map (bumpRow uid fn ln un t)
          = tb.rows.map (bumpRow uid fn ln un t) := by
        rw [List.map_map]
        exact List.map_congr_left (fun r _ => bumpRow_idem uid fn ln un t r)
      simp [this]
    · have h' : tb.rows.any (sameKey uid fn ln un) = false := by simpa using h
      have b1 := ins1 tb t
      rw [if_neg (by simp [h'])] at b1
      rw [b1, ins1]
      have ha : ((tb.rows ++ [(⟨tb.nextId, uid, fn, ln, un, t⟩ : NameRow)]).any
          (sameKey uid fn ln un)) = true := by
        rw [List.any_append]
        simp [sameKey_self]
      rw [if_pos ha]
      have hid : tb.rows.map (bumpRow uid fn ln un t) = tb.rows :=
        map_bumpRow_id uid fn ln un t tb.rows h'
      have hb : bumpRow uid fn ln un t ⟨tb.nextId, uid, fn, ln, un, t⟩
          = ⟨tb.nextId, uid, fn, ln, un, t⟩ := by
        simp [bumpRow, sameKey_self]
      simp [List.map_append, hid, hb]
  · -- re-recording an existing tuple: same row count, monotone timestamps
    intro tb t h
    have b1 := ins1 tb t
    rw [if_pos (by rw [← hfn, ← hln, ← hun] at h; exact h)] at b1
    rw [b1]
    constructor
    · simp
    · exact forall₂_le_map_bumpRow uid fn ln un t tb.rows

/-- Witness for C5 at a concrete empty table and tuple. -/
theorem snapshot_dedup_monotone_witness :
    sanitize_name (some "Bob") = sanitize_name (some "Bob ")
      ∧ countKey ⟨[], 0⟩ 7 (pyTake (sanitize_name (some "Bob")) 64)
          (pyTake (sanitize_name (some "X")) 64)
          (pyTake (sanitize_name (some "bob")) 32) = 0
      ∧ countKey (insert_name_snapshot_if_new
            (insert_name_snapshot_if_new ⟨[], 0⟩ 7 (some "Bob") (some "X")
              (some "bob") 5)
            7 (some "Bob ") (some "X") (some "bob") 3)
          7 (pyTake (sanitize_name (some "Bob")) 64)
          (pyTake (sanitize_name (some "X")) 64)
          (pyTake (sanitize_name (some "bob")) 32) = 1
      ∧ seenAtOf (insert_name_snapshot_if_new
            (insert_name_snapshot_if_new ⟨[], 0⟩ 7 (some "Bob") (some "X")
              (some "bob") 5)
            7 (some "Bob ") (some "X") (some "bob") 3)
          7 (pyTake (sanitize_name (some "Bob")) 64)
          (pyTake (sanitize_name (some "X")) 64)
          (pyTake (sanitize_name (some "bob")) 32) = some (max 5 3) :=
  ⟨by decide, by decide,
   (snapshot_dedup_monotone ⟨[], 0⟩ 7 (some "Bob") (some "X") (some "bob")
     (some "Bob ") (some "X") (some "bob") 5 3 (by decide) (by decide)
     (by decide) (by decide)).1,
   (snapshot_dedup_monotone ⟨[], 0⟩ 7 (some "Bob") (some "X") (some "bob")
     (some "Bob ") (some "X") (some "bob") 5 3 (by decide) (by decide)
     (by decide) (by decide)).2.1⟩

/-! ### As-of lookup -/

/-- Folding `pickLatest` yields an element of the list (or the accumulator)
whose `seen_at` dominates the list and the accumulator. -/
theorem pickLatest_foldl :
    ∀ (l : List NameRow) (acc : Option NameRow),
      ((l.foldl pickLatest acc = none) ↔ (acc = none ∧ l = [])) ∧
      (∀ r, l.foldl pickLatest acc = some r →
        (r ∈ l ∨ acc = some r) ∧ (∀ x ∈ l, x.seenAt ≤ r.seenAt) ∧
        (∀ b, acc = some b → b.seenAt ≤ r.seenAt)) := by
  intro l
  induction l with
  | nil =>
    intro acc
    constructor
    · simp
    · intro r h
      simp only [List.foldl_nil] at h
      refine ⟨Or.inr h, by simp, fun b hb => ?_⟩
      rw [h] at hb
      cases hb
      omega
  | cons a l ih =>
    intro acc
    have step : (a :: l).foldl pickLatest acc = l.foldl pickLatest (pickLatest acc a) :=
      rfl
    have hacc : ∃ c, pickLatest acc a = some c ∧ a.seenAt ≤ c.seenAt ∧
        (c = a ∨ acc = some c) ∧ (∀ b, acc = some b → b.seenAt ≤ c.seenAt) := by
      cases acc with
      | none => exact ⟨a, rfl, le_refl _, Or.inl rfl, by simp⟩
      | some b =>
        by_cases hbet : b.seenAt < a.seenAt ∨ (b.seenAt = a.seenAt ∧ b.rid < a.rid)
        · refine ⟨a, by simp [pickLatest, hbet], le_refl _, Or.inl rfl, ?_⟩
          intro b' hb'
          cases hb'
          rcases hbet with hlt | ⟨heq, _⟩
          · omega
          · omega
        · refine ⟨b, by simp [pickLatest, hbet], ?_, Or.inr rfl, ?_⟩
          · push_neg at hbet
            omega
          · intro b' hb'
            cases hb'
            omega
    obtain ⟨c, hc, hac, hcor, hcacc⟩ := hacc
    obtain ⟨ih1, ih2⟩ := ih (some c)
    constructor
    · rw [step, hc]
      simp [ih1]
    · intro r h
      rw [step, hc] at h
      obtain ⟨hmem, hall, haccle⟩ := ih2 r h
      refine ⟨?_, ?_, ?_⟩
      · rcases hmem with hm | hm
        · exact Or.inl (List.mem_cons_of_mem a hm)
        · have hcr : c = r := Option.some.inj hm
          rcases hcor with h1 | h1
          · exact Or.inl (by rw [← hcr, h1]; exact List.mem_cons_self a l)
          · exact Or.inr (by rw [h1, hcr])
      · intro x hx
        rcases List.mem_cons.mp hx with rfl | hx'
        · exact le_trans hac (haccle c rfl)
        · exact hall x hx'
      · intro b hb
        exact le_trans (hcacc b hb) (haccle c rfl)

/-- **C6**: as-of lookup correctness.  `fetch_snapshot_before_or_at` returns
`none` exactly when the entity has no snapshot at or before the cutoff, and
otherwise returns one of the entity's snapshots at or before the cutoff
whose observation time dominates all of them. -/
theorem asof_lookup (tbl : NamesTable) (uid : Int) (cutoff : Nat) :
    (fetch_snapshot_before_or_at tbl uid cutoff = none ↔
      ∀ r ∈ tbl.rows, ¬(r.userId = uid ∧ r.seenAt ≤ cutoff)) ∧
    ∀ r, fetch_snapshot_before_or_at tbl uid cutoff = some r →
      r ∈ tbl.rows ∧ r.userId = uid ∧ r.seenAt ≤ cutoff ∧
      ∀ r' ∈ tbl.rows, r'.userId = uid → r'.seenAt ≤ cutoff →
        r'.seenAt ≤ r.seenAt := by
  have h := pickLatest_foldl (tbl.rows.filter
    (fun r => decide (r.userId = uid ∧ r.seenAt ≤ cutoff))) none
  constructor
  · rw [show fetch_snapshot_before_or_at tbl uid cutoff
        = (tbl.rows.filter
            (fun r => decide (r.userId = uid ∧ r.seenAt ≤ cutoff))).foldl
          pickLatest none from rfl, h.1]
    simp [List.filter_eq_nil_iff]
  · intro r hr
    obtain ⟨hmem, hall, _⟩ := h.2 r hr
    rcases hmem with hm | hm
    · have hsplit := List.mem_filter.mp hm
      have hpred : r.userId = uid ∧ r.seenAt ≤ cutoff := by
        simpa using hsplit.2
      refine ⟨hsplit.1, hpred.1, hpred.2, ?_⟩
      intro r' hr' h1 h2
      exact hall r' (List.mem_filter.mpr ⟨hr', by simp [h1, h2]⟩)
    · cases hm

/-- Witness for C6 on snapshots at times 10 < 20 < 30: cutoff 20 hits the
20-snapshot, cutoff 15 hits the 10-snapshot, cutoff 5 hits nothing. -/
theorem asof_lookup_witness :
    fetch_snapshot_before_or_at
        ⟨[⟨0, 7, "A", "", "", 10⟩, ⟨1, 7, "B", "", "", 20⟩,
          ⟨2, 7, "C", "", "", 30⟩], 3⟩ 7 5 = none ∧
      ((⟨1, 7, "B", "", "", 20⟩ : NameRow) ∈
          ([⟨0, 7, "A", "", "", 10⟩, ⟨1, 7, "B", "", "", 20⟩,
            ⟨2, 7, "C", "", "", 30⟩] : List NameRow) ∧
        (⟨1, 7, "B", "", "", 20⟩ : NameRow).userId = 7 ∧
        (⟨1, 7, "B", "", "", 20⟩ : NameRow).seenAt ≤ 20 ∧
        ∀ r' ∈ ([⟨0, 7, "A", "", "", 10⟩, ⟨1, 7, "B", "", "", 20⟩,
            ⟨2, 7, "C", "", "", 30⟩] : List NameRow),
          r'.userId = 7 → r'.seenAt ≤ 20 →
            r'.seenAt ≤ (⟨1, 7, "B", "", "", 20⟩ : NameRow).seenAt) ∧
      ((⟨0, 7, "A", "", "", 10⟩ : NameRow) ∈
          ([⟨0, 7, "A", "", "", 10⟩, ⟨1, 7, "B", "", "", 20⟩,
            ⟨2, 7, "C", "", "", 30⟩] : List NameRow) ∧
        (⟨0, 7, "A", "", "", 10⟩ : NameRow).userId = 7 ∧
        (⟨0, 7, "A", "", "", 10⟩ : NameRow).seenAt ≤ 15 ∧
        ∀ r' ∈ ([⟨0, 7, "A", "", "", 10⟩, ⟨1, 7, "B", "", "", 20⟩,
            ⟨2, 7, "C", "", "", 30⟩] : List NameRow),
          r'.userId = 7 → r'.seenAt ≤ 15 →
            r'.seenAt ≤ (⟨0, 7, "A", "", "", 10⟩ : NameRow).seenAt) :=
  ⟨(asof_lookup ⟨[⟨0, 7, "A", "", "", 10⟩, ⟨1, 7, "B", "", "", 20⟩,
      ⟨2, 7, "C", "", "", 30⟩], 3⟩ 7 5).1.mpr (by decide),
   (asof_lookup ⟨[⟨0, 7, "A", "", "", 10⟩, ⟨1, 7, "B", "", "", 20⟩,
      ⟨2, 7, "C", "", "", 30⟩], 3⟩ 7 20).2 ⟨1, 7, "B", "", "", 20⟩ (by decide),
   (asof_lookup ⟨[⟨0, 7, "A", "", "", 10⟩, ⟨1, 7, "B", "", "", 20⟩,
      ⟨2, 7, "C", "", "", 30⟩], 3⟩ 7 15).2 ⟨0, 7, "A", "", "", 10⟩ (by decide)⟩

/-! ### History lookup: unknown entity vs empty history -/

/-- **C7**: `fetch_history_by_user_id` returns `none` exactly for an entity
with no snapshots and no user row, `some []` exactly for an entity with no
snapshots but a user row, and otherwise the full snapshot list of the
entity, ordered oldest-first (by `seen_at`, then insertion id). -/
theorem history_distinguishes (db : WelcomeDb) (uid : Int) :
    (fetch_history_by_user_id db uid = none ↔
      db.names.rows.filter (fun r => decide (r.userId = uid)) = []
        ∧ uid ∉ db.users) ∧
    (fetch_history_by_user_id db uid = some [] ↔
      db.names.rows.filter (fun r => decide (r.userId = uid)) = []
        ∧ uid ∈ db.users) ∧
    (db.names.rows.filter (fun r => decide (r.userId = uid)) ≠ [] →
      ∃ l, fetch_history_by_user_id db uid = some l ∧
        l.Perm (db.names.rows.filter (fun r => decide (r.userId = uid))) ∧
        List.Pairwise histLe l) := by
  have hperm := List.perm_insertionSort histLe
    (db.names.rows.filter (fun r => decide (r.userId = uid)))
  have hsorted := List.sorted_insertionSort histLe
    (db.names.rows.filter (fun r => decide (r.userId = uid)))
  by_cases hF : db.names.rows.filter (fun r => decide (r.userId = uid)) = []
  · have hS : List.insertionSort histLe
        (db.names.rows.filter (fun r => decide (r.userId = uid))) = [] := by
      rw [hF]
      rfl
    by_cases hmem : uid ∈ db.users
    · refine ⟨?_, ?_, fun hne => absurd hF hne⟩
      · simp [fetch_history_by_user_id, hS, hmem, hF]
      · simp [fetch_history_by_user_id, hS, hmem, hF]
    · refine ⟨?_, ?_, fun hne => absurd hF hne⟩
      · simp [fetch_history_by_user_id, hS, hmem, hF]
      · simp [fetch_history_by_user_id, hS, hmem, hF]
  · have hSne : List.insertionSort histLe
        (db.names.rows.filter (fun r => decide (r.userId = uid))) ≠ [] := by
      intro h0
      rw [h0] at hperm
      exact hF (hperm.symm.eq_nil)
    refine ⟨?_, ?_, fun _ => ⟨_, ?_, hperm, hsorted⟩⟩
    · simp [fetch_history_by_user_id, hSne, hF, List.isEmpty_iff]
    · simp [fetch_history_by_user_id, hSne, hF, List.isEmpty_iff]
    · simp [fetch_history_by_user_id, hSne, List.isEmpty_iff]

/-- Witness for C7: an entity with no user row gives `none`, one with a user
row but no snapshots gives `[]`, one with snapshots gets its ordered
history. -/
theorem history_distinguishes_witness :
    fetch_history_by_user_id ⟨[1], ⟨[⟨0, 2, "N", "", "", 5⟩], 1⟩⟩ 9 = none ∧
      fetch_history_by_user_id ⟨[1], ⟨[⟨0, 2, "N", "", "", 5⟩], 1⟩⟩ 1
        = some [] ∧
      ∃ l, fetch_history_by_user_id ⟨[1], ⟨[⟨0, 2, "N", "", "", 5⟩], 1⟩⟩ 2
          = some l ∧
        l.Perm (([⟨0, 2, "N", "", "", 5⟩] : List NameRow).filter
          (fun r => decide (r.userId = 2))) ∧
        List.Pairwise histLe l :=
  ⟨(history_distinguishes ⟨[1], ⟨[⟨0, 2, "N", "", "", 5⟩], 1⟩⟩ 9).1.mpr
      ⟨by decide, by decide⟩,
   (history_distinguishes ⟨[1], ⟨[⟨0, 2, "N", "", "", 5⟩], 1⟩⟩ 1).2.1.mpr
      ⟨by decide, by decide⟩,
   (history_distinguishes ⟨[1], ⟨[⟨0, 2, "N", "", "", 5⟩], 1⟩⟩ 2).2.2
      (by decide)⟩

/-! ### Canonicalization pipeline invariants

The collapsed output contains only the original non-whitespace characters
plus single ASCII spaces, never two adjacent whitespace characters. -/

/-- Characters of collapsed output: an emitted space or a kept
non-whitespace input character. -/
theorem mem_collapseWsAux :
    ∀ (x : List Char) (flag : Bool) (c : Char), c ∈ collapseWsAux flag x →
      c = ' ' ∨ (c ∈ x ∧ isPySpace c = false) := by
  intro x
  induction x with
  | nil => intro flag c hc; cases hc
  | cons a rest ih =>
    intro flag c hc
    by_cases ha : isPySpace a = true
    · cases flag with
      | true =>
        simp only [collapseWsAux, ha, if_true] at hc
        rcases ih true c hc with h | ⟨hm, hs⟩
        · exact Or.inl h
        · exact Or.inr ⟨List.mem_cons_of_mem a hm, hs⟩
      | false =>
        simp only [collapseWsAux, ha, Bool.false_eq_true, if_true, if_false] at hc
        rcases List.mem_cons.mp hc with rfl | hc'
        · exact Or.inl rfl
        · rcases ih true c hc' with h | ⟨hm, hs⟩
          · exact Or.inl h
          · exact Or.inr ⟨List.mem_cons_of_mem a hm, hs⟩
    · have ha' : isPySpace a = false := by simpa using ha
      simp only [collapseWsAux, ha', Bool.false_eq_true, if_false] at hc
      rcases List.mem_cons.mp hc with rfl | hc'
      · exact Or.inr ⟨List.mem_cons_self _ _, ha'⟩
      · rcases ih false c hc' with h | ⟨hm, hs⟩
        · exact Or.inl h
        · exact Or.inr ⟨List.mem_cons_of_mem a hm, hs⟩

/-- Collapsed output never has two adjacent whitespace characters, and in
run-skipping mode it starts with a non-whitespace character. -/
theorem chain_collapseWsAux :
    ∀ (x : List Char),
      (List.Chain' spacedR (collapseWsAux false x)
        ∧ List.Chain' spacedR (collapseWsAux true x))
      ∧ headNotSpace (collapseWsAux true x) = true := by
  intro x
  induction x with
  | nil => exact ⟨⟨List.chain'_nil, List.chain'_nil⟩, rfl⟩
  | cons a rest ih =>
    obtain ⟨⟨ihf, iht⟩, ihh⟩ := ih
    by_cases ha : isPySpace a = true
    · refine ⟨⟨?_, ?_⟩, ?_⟩
      · simp only [collapseWsAux, ha, Bool.false_eq_true, if_true, if_false]
        rw [List.chain'_cons']
        refine ⟨?_, iht⟩
        intro b hb
        right
        rcases hhead : collapseWsAux true rest with _ | ⟨d, t⟩
        · rw [hhead] at hb; cases hb
        · rw [hhead] at hb
          simp only [List.head?_cons, Option.mem_def, Option.some.injEq] at hb
          subst hb
          have := ihh
          rw [hhead] at this
          simpa [headNotSpace] using this
      · simp only [collapseWsAux, ha, if_true]
        exact iht
      · simp only [collapseWsAux, ha, if_true]
        exact ihh
    · have ha' : isPySpace a = false := by simpa using ha
      have hcons : List.Chain' spacedR (a :: collapseWsAux false rest) := by
        rw [List.chain'_cons']
        exact ⟨fun b _ => Or.inl ha', ihf⟩
      refine ⟨⟨?_, ?_⟩, ?_⟩
      · simp only [collapseWsAux, ha', Bool.false_eq_true, if_false]
        exact hcons
      · simp only [collapseWsAux, ha', Bool.false_eq_true, if_false]
        exact hcons
      · simp only [collapseWsAux, ha', Bool.false_eq_true, if_false]
        simp [headNotSpace, ha']

/-- On already-collapsed input whose only whitespace is the ASCII space,
the whitespace-collapsing pass is the identity. -/
theorem collapseWsAux_id :
    ∀ (y : List Char), (∀ c ∈ y, isPySpace c = true → c = ' ') →
      List.Chain' spacedR y →
      collapseWsAux false y = y
        ∧ (headNotSpace y = true → collapseWsAux true y = y) := by
  intro y
  induction y with
  | nil => exact fun _ _ => ⟨rfl, fun _ => rfl⟩
  | cons c rest ih =>
    intro h1 h2
    have h1' : ∀ d ∈ rest, isPySpace d = true → d = ' ' :=
      fun d hd => h1 d (List.mem_cons_of_mem c hd)
    have h2' : List.Chain' spacedR rest := (List.chain'_cons'.mp h2).2
    obtain ⟨ihf, iht⟩ := ih h1' h2'
    by_cases hc : isPySpace c = true
    · have hsp : c = ' ' := h1 c (List.mem_cons_self c rest) hc
      have hhead : headNotSpace rest = true := by
        rcases hrest : rest with _ | ⟨d, t⟩
        · rfl
        · have hr := (List.chain'_cons'.mp h2).1 d (by rw [hrest]; rfl)
          rcases hr with hl | hr'
          · rw [hl] at hc; cases hc
          · simp [headNotSpace, hr']
      have hsp' : isPySpace ' ' = true := by decide
      refine ⟨?_, fun hh => ?_⟩
      · subst hsp
        simp only [collapseWsAux, hsp', Bool.false_eq_true, if_true, if_false,
          iht hhead]
      · rw [headNotSpace] at hh
        rw [hc] at hh
        cases hh
    · have hc' : isPySpace c = false := by simpa using hc
      refine ⟨?_, fun _ => ?_⟩
      · simp only [collapseWsAux, hc', Bool.false_eq_true, if_false, ihf]
      · simp only [collapseWsAux, hc', Bool.false_eq_true, if_false, ihf]

/-- Dropping leading whitespace leaves a sequence with no leading
whitespace. -/
theorem headNotSpace_dropWhile :
    ∀ l : List Char, headNotSpace (l.dropWhile isPySpace) = true := by
  intro l
  induction l with
  | nil => rfl
  | cons c rest ih =>
    by_cases hc : isPySpace c = true
    · rw [List.dropWhile_cons_of_pos hc]
      exact ih
    · rw [List.dropWhile_cons_of_neg hc]
      simp only [headNotSpace]
      simpa using hc

/-- Dropping leading whitespace from a sequence with none is the identity. -/
theorem dropWhile_id_of_headNotSpace (l : List Char)
    (h : headNotSpace l = true) : l.dropWhile isPySpace = l := by
  cases l with
  | nil => rfl
  | cons c rest =>
    simp only [headNotSpace] at h
    rw [List.dropWhile_cons_of_neg (by simpa using h)]

/-- `strip` is the identity on a sequence with no leading or trailing
whitespace. -/
theorem stripWs_id (y : List Char) (h1 : headNotSpace y = true)
    (h2 : headNotSpace y.reverse = true) : stripWs y = y := by
  unfold stripWs
  rw [dropWhile_id_of_headNotSpace y h1, dropWhile_id_of_headNotSpace _ h2,
    List.reverse_reverse]

/-- `strip` keeps only characters of its input. -/
theorem mem_stripWs (y : List Char) (c : Char) (hc : c ∈ stripWs y) : c ∈ y := by
  unfold stripWs at hc
  rw [List.mem_reverse] at hc
  have hc2 := (List.dropWhile_sublist isPySpace).mem hc
  rw [List.mem_reverse] at hc2
  exact (List.dropWhile_sublist isPySpace).mem hc2

/-- A Zs character always counts as Python whitespace. -/
theorem isPySpace_of_zs (c : Char) (h : ucat c = UCat.Zs) :
    isPySpace c = true := by
  simp [isPySpace, h]

/-- Every character of canonicalized output is the ASCII space or a visible
non-whitespace character. -/
theorem mem_sanitizeChars (x : List Char) (c : Char) (hc : c ∈ sanitizeChars x) :
    c = ' ' ∨ (isPySpace c = false ∧ isInvisible c = false) := by
  unfold sanitizeChars at hc
  have hc1 := mem_stripWs _ c hc
  rcases mem_collapseWsAux _ false c hc1 with h | ⟨hm, hs⟩
  · exact Or.inl h
  · have hsplit := List.mem_filter.mp hm
    exact Or.inr ⟨hs, by simpa using hsplit.2⟩

/-- The fingerprint separator `U+001F` is a control character, so
canonicalization always removes it. -/
theorem sep_not_mem_sanitizeChars (x : List Char) :
    ('\x1F' : Char) ∉ sanitizeChars x := by
  intro h
  rcases mem_sanitizeChars x _ h with h1 | ⟨_, h2⟩
  · exact absurd h1 (by decide)
  · rw [show isInvisible '\x1F' = true from by decide] at h2
    cases h2

/-- The separator never occurs in a canonicalized name field. -/
theorem sep_not_mem_sanitize_name (v : Option String) :
    ('\x1F' : Char) ∉ (sanitize_name v).data := by
  cases v with
  | none => simp [sanitize_name]
  | some s =>
    by_cases hs : s = ""
    · simp [sanitize_name, hs]
    · simp only [sanitize_name, hs, if_neg]
      exact sep_not_mem_sanitizeChars s.data

/-- Splitting at the first occurrence of a separator both sides avoid is
unambiguous. -/
theorem append_sep_inj {x : Char} :
    ∀ (a c b d : List Char), x ∉ a → x ∉ c →
      a ++ x :: b = c ++ x :: d → a = c ∧ b = d := by
  intro a
  induction a with
  | nil =>
    intro c b d _ hc h
    cases c with
    | nil =>
      simp only [List.nil_append] at h
      exact ⟨rfl, (List.cons.inj h).2⟩
    | cons y ys =>
      simp only [List.nil_append, List.cons_append] at h
      obtain ⟨h1, _⟩ := List.cons.inj h
      exact absurd (by rw [h1]; exact List.mem_cons_self y ys) hc
  | cons z zs ih =>
    intro c b d ha hc h
    cases c with
    | nil =>
      simp only [List.cons_append, List.nil_append] at h
      obtain ⟨h1, _⟩ := List.cons.inj h
      exact absurd (by rw [← h1]; exact List.mem_cons_self z zs) ha
    | cons y ys =>
      simp only [List.cons_append] at h
      obtain ⟨h1, h2⟩ := List.cons.inj h
      have ha' : x ∉ zs := fun hx => ha (List.mem_cons_of_mem z hx)
      have hc' : x ∉ ys := fun hx => hc (List.mem_cons_of_mem y hx)
      obtain ⟨e1, e2⟩ := ih ys b d ha' hc' h2
      exact ⟨by rw [h1, e1], e2⟩

/-- **C4**: the fingerprint is a faithful equality key — two fingerprints
agree exactly when the three canonicalized fields agree component-wise; the
`"\x1f"` separator cannot collide because canonicalization strips it. -/
theorem fingerprint_faithful (f1 l1 u1 f2 l2 u2 : Option String) :
    name_fingerprint f1 l1 u1 = name_fingerprint f2 l2 u2 ↔
      (sanitize_name f1 = sanitize_name f2
        ∧ sanitize_name l1 = sanitize_name l2
        ∧ sanitize_name u1 = sanitize_name u2) := by
  constructor
  · intro h
    have hd := congrArg String.data h
    simp only [name_fingerprint, String.data_append,
      show ("\x1F" : String).data = ['\x1F'] from rfl, List.append_assoc,
      List.singleton_append] at hd
    obtain ⟨e1, erest⟩ := append_sep_inj _ _ _ _
      (sep_not_mem_sanitize_name f1) (sep_not_mem_sanitize_name f2) hd
    obtain ⟨e2, e3⟩ := append_sep_inj _ _ _ _
      (sep_not_mem_sanitize_name l1) (sep_not_mem_sanitize_name l2) erest
    exact ⟨String.ext e1, String.ext e2, String.ext e3⟩
  · rintro ⟨h1, h2, h3⟩
    simp only [name_fingerprint, h1, h2, h3]

/-- Witness for C4: a zero-width space changes nothing — the two triples
canonicalize identically, so their fingerprints agree. -/
theorem fingerprint_faithful_witness :
    (sanitize_name (some "Alex​") = sanitize_name (some "Alex")
        ∧ sanitize_name none = sanitize_name none
        ∧ sanitize_name (some "alx") = sanitize_name (some "alx"))
      ∧ name_fingerprint (some "Alex​") none (some "alx")
        = name_fingerprint (some "Alex") none (some "alx") :=
  ⟨⟨by decide, rfl, rfl⟩,
   (fingerprint_faithful (some "Alex​") none (some "alx")
     (some "Alex") none (some "alx")).mpr ⟨by decide, rfl, rfl⟩⟩

/-! ### Canonicalization idempotence -/

/-- Right-stripping keeps "starts with non-whitespace". -/
theorem headNotSpace_rstrip (l : List Char) (h : headNotSpace l = true) :
    headNotSpace ((l.reverse.dropWhile isPySpace).reverse) = true := by
  cases l with
  | nil => rfl
  | cons c rest =>
    simp only [headNotSpace] at h
    have hc : isPySpace c = false := by simpa using h
    have hsplit := dropWhile_append_cons_of_neg isPySpace c hc rest.reverse []
    simp only [List.reverse_cons]
    rw [hsplit]
    rw [List.reverse_append]
    simp [headNotSpace, hc]

/-- Reversal keeps the no-adjacent-whitespace invariant. -/
theorem chain_spacedR_reverse (l : List Char) (h : List.Chain' spacedR l) :
    List.Chain' spacedR l.reverse := by
  rw [List.chain'_reverse]
  exact h.imp (fun a b hab => Or.symm hab)

/-- The canonicalized output is collapsed: no two adjacent whitespace
characters. -/
theorem chain_sanitizeChars (x : List Char) :
    List.Chain' spacedR (sanitizeChars x) := by
  unfold sanitizeChars stripWs
  have h0 := (chain_collapseWsAux
    (((nfc x).map zsToSpace).filter (fun c => !isInvisible c))).1.1
  have h1 := h0.suffix (List.dropWhile_suffix isPySpace)
  have h2 := chain_spacedR_reverse _ h1
  have h3 := h2.suffix (List.dropWhile_suffix isPySpace)
  exact chain_spacedR_reverse _ h3

/-- The canonicalized output is trimmed at the front. -/
theorem headNotSpace_sanitizeChars (x : List Char) :
    headNotSpace (sanitizeChars x) = true := by
  unfold sanitizeChars stripWs
  exact headNotSpace_rstrip _ (headNotSpace_dropWhile _)

/-- The canonicalized output is trimmed at the back. -/
theorem headNotSpace_reverse_sanitizeChars (x : List Char) :
    headNotSpace (sanitizeChars x).reverse = true := by
  unfold sanitizeChars stripWs
  rw [List.reverse_reverse]
  exact headNotSpace_dropWhile _

/-- Canonicalization is idempotent on any input whose canonical form is
still NFC-normal. -/
theorem sanitize_idem_chars (x : List Char)
    (h : nfc (sanitizeChars x) = sanitizeChars x) :
    sanitizeChars (sanitizeChars x) = sanitizeChars x := by
  have hmem := mem_sanitizeChars x
  have hmap : (sanitizeChars x).map zsToSpace = sanitizeChars x := by
    have hpt : ∀ c ∈ sanitizeChars x, zsToSpace c = c := by
      intro c hc
      rcases hmem c hc with rfl | ⟨hs, _⟩
      · rfl
      · unfold zsToSpace
        rw [if_neg (fun hz => by rw [isPySpace_of_zs c hz] at hs; cases hs)]
    rw [List.map_congr_left hpt]
    simp
  have hfil : (sanitizeChars x).filter (fun c => !isInvisible c)
      = sanitizeChars x := by
    rw [List.filter_eq_self]
    intro c hc
    rcases hmem c hc with rfl | ⟨_, hi⟩
    · decide
    · simp [hi]
  have honlyspace : ∀ c ∈ sanitizeChars x, isPySpace c = true → c = ' ' := by
    intro c hc hsp
    rcases hmem c hc with rfl | ⟨hs, _⟩
    · rfl
    · rw [hsp] at hs; cases hs
  have hcol : collapseWs (sanitizeChars x) = sanitizeChars x :=
    (collapseWsAux_id (sanitizeChars x) honlyspace (chain_sanitizeChars x)).1
  show stripWs (collapseWs
    (((nfc (sanitizeChars x)).map zsToSpace).filter (fun c => !isInvisible c)))
    = sanitizeChars x
  rw [h, hmap, hfil, hcol,
    stripWs_id _ (headNotSpace_sanitizeChars x)
      (headNotSpace_reverse_sanitizeChars x)]

set_option maxRecDepth 8192 in
/-- Counterexample for C3 as stated: for `s = "e" + U+200C + U+0301` one
canonicalization yields `"e" + U+0301` (the zero-width non-joiner blocked
composition and is then stripped), and a second canonicalization composes
that to `"é"`. -/
theorem canonicalization_not_idempotent :
    sanitize_name (some (sanitize_name (some "e‌́")))
      ≠ sanitize_name (some "e‌́") := by decide

/-- **C3 (amended)**: canonicalization is idempotent for every string whose
canonicalized form is still NFC-normal — equivalently, whenever stripping
format/control characters does not create a new composition opportunity.
(The unamended claim fails: see the counterexample.) -/
theorem canonicalization_idem_of_nfc_fixed (s : String)
    (h : nfc (sanitize_name (some s)).data = (sanitize_name (some s)).data) :
    sanitize_name (some (sanitize_name (some s))) = sanitize_name (some s) := by
  by_cases hs : s = ""
  · subst hs
    rfl
  · have ht : sanitize_name (some s) = ⟨sanitizeChars s.data⟩ := by
      simp [sanitize_name, hs]
    by_cases htz : sanitize_name (some s) = ""
    · rw [htz]
      rfl
    · rw [ht] at h htz ⊢
      have hdata : nfc (sanitizeChars s.data) = sanitizeChars s.data := h
      have : sanitize_name (some (⟨sanitizeChars s.data⟩ : String))
          = ⟨sanitizeChars (sanitizeChars s.data)⟩ := by
        simp [sanitize_name, htz]
      rw [this]
      exact congrArg String.mk (sanitize_idem_chars s.data hdata)

set_option maxRecDepth 8192 in
/-- Witness for the amended C3: a name with a zero-width space
canonicalizes to an NFC-normal string, and a second canonicalization is the
identity on it. -/
theorem canonicalization_idem_of_nfc_fixed_witness :
    nfc (sanitize_name (some "Alex​")).data = (sanitize_name (some "Alex​")).data
      ∧ sanitize_name (some (sanitize_name (some "Alex​")))
        = sanitize_name (some "Alex​") :=
  ⟨by decide, canonicalization_idem_of_nfc_fixed "Alex​" (by decide)⟩

/-! ### Scanner rate-limit handling -/

/-- The pacing sleep touches only the clock, the call stamp and the pace
events. -/
theorem respectRatelimit_spec (cfg : ScanConfig) (st : ScanState) :
    (respectRatelimit cfg st).pairs = st.pairs
      ∧ (respectRatelimit cfg st).idx = st.idx
      ∧ (respectRatelimit cfg st).attempt = st.attempt
      ∧ (respectRatelimit cfg st).sends = st.sends
      ∧ (respectRatelimit cfg st).members = st.members
      ∧ (respectRatelimit cfg st).welcome = st.welcome
      ∧ (respectRatelimit cfg st).cache = st.cache
      ∧ ∃ pace : List ScanEvent,
          (respectRatelimit cfg st).events = st.events ++ pace
            ∧ ∀ e ∈ pace, ∃ q, e = ScanEvent.paceSleep q := by
  unfold respectRatelimit
  by_cases h0 : cfg.minGap ≤ 0
  · rw [if_pos h0]
    exact ⟨rfl, rfl, rfl, rfl, rfl, rfl, rfl, [], by simp, by simp⟩
  · rw [if_neg h0]
    dsimp only
    by_cases h1 : 0 < st.lastCallTs + cfg.minGap - st.now
    · rw [if_pos h1]
      refine ⟨rfl, rfl, rfl, rfl, rfl, rfl, rfl,
        [ScanEvent.paceSleep (st.lastCallTs + cfg.minGap - st.now)], rfl, ?_⟩
      intro e he
      rcases List.mem_singleton.mp he with rfl
      exact ⟨_, rfl⟩
    · rw [if_neg h1]
      exact ⟨rfl, rfl, rfl, rfl, rfl, rfl, rfl, [], by simp, by simp⟩

/-- `attemptsOf` ignores every event except `fetchAttempt`. -/
theorem attemptsOf_append (l1 l2 : List ScanEvent) :
    attemptsOf (l1 ++ l2) = attemptsOf l1 ++ attemptsOf l2 := by
  simp [attemptsOf, List.filterMap_append]

/-- Pace events contribute no fetch attempts. -/
theorem attemptsOf_pace (pace : List ScanEvent)
    (h : ∀ e ∈ pace, ∃ q, e = ScanEvent.paceSleep q) : attemptsOf pace = [] := by
  induction pace with
  | nil => rfl
  | cons e t ih =>
    obtain ⟨q, rfl⟩ := h e (List.mem_cons_self e t)
    simp only [attemptsOf, List.filterMap_cons]
    exact ih (fun e he => h e (List.mem_cons_of_mem _ he))

@[simp] theorem attemptsOf_nil : attemptsOf [] = [] := rfl

@[simp] theorem attemptsOf_cons_fetchAttempt (c u : Int) (l : List ScanEvent) :
    attemptsOf (.fetchAttempt c u :: l) = (c, u) :: attemptsOf l := rfl

@[simp] theorem attemptsOf_cons_paceSleep (q : ℚ) (l : List ScanEvent) :
    attemptsOf (.paceSleep q :: l) = attemptsOf l := rfl

@[simp] theorem attemptsOf_cons_backoffSleep (s : Int) (l : List ScanEvent) :
    attemptsOf (.backoffSleep s :: l) = attemptsOf l := rfl

@[simp] theorem attemptsOf_cons_requeued (c u : Int) (l : List ScanEvent) :
    attemptsOf (.requeued c u :: l) = attemptsOf l := rfl

@[simp] theorem attemptsOf_cons_prunedChat (c : Int) (l : List ScanEvent) :
    attemptsOf (.prunedChat c :: l) = attemptsOf l := rfl

@[simp] theorem attemptsOf_cons_markedInactive (c : Int) (l : List ScanEvent) :
    attemptsOf (.markedInactive c :: l) = attemptsOf l := rfl

@[simp] theorem attemptsOf_cons_markedChecked (c u : Int) (l : List ScanEvent) :
    attemptsOf (.markedChecked c u :: l) = attemptsOf l := rfl

@[simp] theorem attemptsOf_cons_removedMember (c u : Int) (l : List ScanEvent) :
    attemptsOf (.removedMember c u :: l) = attemptsOf l := rfl

@[simp] theorem attemptsOf_cons_announced (c u : Int)
    (d : List (String × String × String)) (l : List ScanEvent) :
    attemptsOf (.announced c u d :: l) = attemptsOf l := rfl

@[simp] theorem attemptsOf_append' (l1 l2 : List ScanEvent) :
    attemptsOf (l1 ++ l2) = attemptsOf l1 ++ attemptsOf l2 :=
  attemptsOf_append l1 l2

@[simp] theorem respectRatelimit_pairs (cfg : ScanConfig) (st : ScanState) :
    (respectRatelimit cfg st).pairs = st.pairs :=
  (respectRatelimit_spec cfg st).1

@[simp] theorem respectRatelimit_idx (cfg : ScanConfig) (st : ScanState) :
    (respectRatelimit cfg st).idx = st.idx :=
  (respectRatelimit_spec cfg st).2.1

@[simp] theorem respectRatelimit_attempt (cfg : ScanConfig) (st : ScanState) :
    (respectRatelimit cfg st).attempt = st.attempt :=
  (respectRatelimit_spec cfg st).2.2.1

@[simp] theorem respectRatelimit_sends (cfg : ScanConfig) (st : ScanState) :
    (respectRatelimit cfg st).sends = st.sends :=
  (respectRatelimit_spec cfg st).2.2.2.1

@[simp] theorem respectRatelimit_attemptsOf (cfg : ScanConfig) (st : ScanState) :
    attemptsOf (respectRatelimit cfg st).events = attemptsOf st.events := by
  obtain ⟨_, _, _, _, _, _, _, pace, he, hpace⟩ := respectRatelimit_spec cfg st
  rw [he, attemptsOf_append, attemptsOf_pace pace hpace]
  simp

/-- The per-member processing path never touches the batch list, the loop
index or the attempt counter, and emits no fetch attempts. -/
theorem scanProcessMember_spec (cfg : ScanConfig) (sendsScript : List SendOutcome)
    (st : ScanState) (chatId userId : Int) (status : MemberStatus)
    (user : Option UserView) :
    (scanProcessMember cfg sendsScript st chatId userId status user).pairs = st.pairs
      ∧ (scanProcessMember cfg sendsScript st chatId userId status user).idx = st.idx
      ∧ (scanProcessMember cfg sendsScript st chatId userId status user).attempt
          = st.attempt
      ∧ attemptsOf
          (scanProcessMember cfg sendsScript st chatId userId status user).events
          = attemptsOf st.events := by
  unfold scanProcessMember
  split
  · simp
  · split
    · simp
    · split
      · simp
      · dsimp only
        split
        · simp
        · split
          · simp
          · split
            · simp
            · split
              · simp
              · simp
              · simp

/-- One loop iteration fetches exactly the current pair, advances the index
by one, and extends the batch list only by requeueing that pair. -/
theorem scanStep_attempts (cfg : ScanConfig) (fetches : List FetchOutcome)
    (sendsScript : List SendOutcome) (st : ScanState)
    (hlt : st.idx < st.pairs.length)
    (hinv : attemptsOf st.events
      = (st.pairs.take st.idx).map (fun p => (p.1, p.2.1))) :
    attemptsOf (scanStep cfg fetches sendsScript st).events
      = ((scanStep cfg fetches sendsScript st).pairs.take
          (scanStep cfg fetches sendsScript st).idx).map (fun p => (p.1, p.2.1)) := by
  have hidx : st.pairs[st.idx]? = some st.pairs[st.idx] :=
    List.getElem?_eq_getElem hlt
  rcases hp : st.pairs[st.idx] with ⟨chatId, userId, lc⟩
  rw [hp] at hidx
  have hkey : (st.pairs.take (st.idx + 1)).map (fun p => (p.1, p.2.1))
      = (st.pairs.take st.idx).map (fun p => (p.1, p.2.1)) ++ [(chatId, userId)] := by
    rw [List.take_succ, hidx]
    simp
  unfold scanStep
  split
  · rename_i heq
    rw [heq] at hidx
    cases hidx
  · rename_i c0 u0 lc0 heq
    obtain ⟨rfl, rfl, rfl⟩ :
        chatId = c0 ∧ userId = u0 ∧ lc = lc0 := by
      have := hidx.symm.trans heq
      simpa using this
    have htake : (st.pairs ++ [(chatId, userId, lc)]).take (st.idx + 1)
        = st.pairs.take (st.idx + 1) :=
      List.take_append_of_le_length (by omega)
    dsimp only
    split
    · simp [htake, hkey, hinv]
    · simp [hkey, hinv]
    · simp [hkey, hinv]
    · simp [hkey, hinv]
    · rw [(scanProcessMember_spec cfg sendsScript _ _ _ _ _).2.2.2,
        (scanProcessMember_spec cfg sendsScript _ _ _ _ _).1,
        (scanProcessMember_spec cfg sendsScript _ _ _ _ _).2.1]
      simp [hkey, hinv]

/-- Over any completed scan run, the sequence of fetched pairs equals the
final batch list (original pairs plus requeues), each fetched once in
order. -/
theorem scanRun_attempts (cfg : ScanConfig) (fetches : List FetchOutcome)
    (sendsScript : List SendOutcome) :
    ∀ (fuel : Nat) (st : ScanState),
      attemptsOf st.events = (st.pairs.take st.idx).map (fun p => (p.1, p.2.1)) →
      attemptsOf (scanRun cfg fetches sendsScript fuel st).events
        = ((scanRun cfg fetches sendsScript fuel st).pairs.take
            (scanRun cfg fetches sendsScript fuel st).idx).map
          (fun p => (p.1, p.2.1)) := by
  intro fuel
  induction fuel with
  | zero => exact fun st h => h
  | succ n ih =>
    intro st h
    by_cases hlt : st.idx < st.pairs.length
    · rw [show scanRun cfg fetches sendsScript (n + 1) st
          = scanRun cfg fetches sendsScript n (scanStep cfg fetches sendsScript st)
        from by simp [scanRun, hlt]]
      exact ih _ (scanStep_attempts cfg fetches sendsScript st hlt h)
    · rw [show scanRun cfg fetches sendsScript (n + 1) st = st
        from by simp [scanRun, hlt]]
      exact h

/-- **C8**: when the fetch for the current pair hits a rate limit with
retry-after `n`, the scanner advances past it, sleeps
`max 1 n + max 0 leeway ≥ n + leeway` seconds, and appends that very pair to
the end of the batch's work list (it is never dropped); and over any run
that drains its work list, every pair of the final list — requeues
included — is fetched exactly once in order, so the remaining pairs are
processed normally and the requeued pair is retried within the same run. -/
theorem scanner_retry_requeues (cfg : ScanConfig) (fetches : List FetchOutcome)
    (sendsScript : List SendOutcome) (st : ScanState)
    (chatId userId : Int) (lc : Nat) (n : Int)
    (hidx : st.pairs[st.idx]? = some (chatId, userId, lc))
    (houtc : fetches.getD st.attempt FetchOutcome.otherError
      = FetchOutcome.retryAfter n) :
    ((scanStep cfg fetches sendsScript st).pairs
        = st.pairs ++ [(chatId, userId, lc)]
      ∧ (scanStep cfg fetches sendsScript st).idx = st.idx + 1
      ∧ (∃ pace : List ScanEvent,
          (∀ e ∈ pace, ∃ q, e = ScanEvent.paceSleep q)
          ∧ (scanStep cfg fetches sendsScript st).events
            = st.events ++ pace
              ++ [ScanEvent.fetchAttempt chatId userId,
                  ScanEvent.backoffSleep (max 1 n + max 0 cfg.retryLeeway),
                  ScanEvent.requeued chatId userId])
      ∧ n + cfg.retryLeeway ≤ max 1 n + max 0 cfg.retryLeeway)
    ∧ ∀ (fuel : Nat) (st0 : ScanState),
        st0.idx = 0 → st0.events = [] →
        (scanRun cfg fetches sendsScript fuel st0).pairs.length
            ≤ (scanRun cfg fetches sendsScript fuel st0).idx →
        attemptsOf (scanRun cfg fetches sendsScript fuel st0).events
          = (scanRun cfg fetches sendsScript fuel st0).pairs.map
              (fun p => (p.1, p.2.1)) := by
  constructor
  · unfold scanStep
    split
    · rename_i heq
      rw [heq] at hidx
      cases hidx
    · rename_i c0 u0 lc0 heq
      obtain ⟨rfl, rfl, rfl⟩ :
          chatId = c0 ∧ userId = u0 ∧ lc = lc0 := by
        have := hidx.symm.trans heq
        simpa using this
      dsimp only
      split
      · rename_i n0 heq2
        simp only [respectRatelimit_attempt] at heq2
        rw [houtc] at heq2
        obtain rfl : n = n0 := by injection heq2
        refine ⟨by simp, by simp, ?_, ?_⟩
        · obtain ⟨_, _, _, _, _, _, _, pace, hev, hpace⟩ :=
            respectRatelimit_spec cfg { st with idx := st.idx + 1 }
          refine ⟨pace, hpace, ?_⟩
          dsimp only
          rw [hev]
          simp
        · exact add_le_add (le_max_right _ _) (le_max_right _ _)
      · rename_i heq2
        simp only [respectRatelimit_attempt] at heq2
        rw [houtc] at heq2
        cases heq2
      · rename_i heq2
        simp only [respectRatelimit_attempt] at heq2
        rw [houtc] at heq2
        cases heq2
      · rename_i heq2
        simp only [respectRatelimit_attempt] at heq2
        rw [houtc] at heq2
        cases heq2
      · rename_i status user heq2
        simp only [respectRatelimit_attempt] at heq2
        rw [houtc] at heq2
        cases heq2
  · intro fuel st0 h0 hev hdone
    have hbase : attemptsOf st0.events
        = (st0.pairs.take st0.idx).map (fun p => (p.1, p.2.1)) := by
      rw [hev, h0]
      simp
    have hrun := scanRun_attempts cfg fetches sendsScript fuel st0 hbase
    rwa [List.take_of_length_le hdone] at hrun

/-- Witness for C8: a batch whose first fetch is rate-limited with
retry-after 3 and leeway 1 — the pair is appended back to the work list,
and a fueled run fetches it again, draining the batch. -/
theorem scanner_retry_requeues_witness :
    ((⟨[(2, 20, 0)], 0, 0, 0, 0, 0, ([] : ChatMembersTable), ⟨[], ⟨[], 0⟩⟩, ([] : AnnounceCache), []⟩ :
        ScanState).pairs[(0 : Nat)]? = some (2, 20, 0))
    ∧ ([FetchOutcome.retryAfter 3].getD 0 FetchOutcome.otherError
        = FetchOutcome.retryAfter 3)
    ∧ (scanStep ⟨0, 1⟩ [FetchOutcome.retryAfter 3] []
        ⟨[(2, 20, 0)], 0, 0, 0, 0, 0, ([] : ChatMembersTable), ⟨[], ⟨[], 0⟩⟩, ([] : AnnounceCache), []⟩).pairs
        = [(2, 20, 0), (2, 20, 0)]
    ∧ (3 : Int) + 1 ≤ max 1 3 + max 0 1
    ∧ attemptsOf (scanRun ⟨0, 1⟩ [FetchOutcome.retryAfter 3] [] 3
        ⟨[(2, 20, 0)], 0, 0, 0, 0, 0, ([] : ChatMembersTable), ⟨[], ⟨[], 0⟩⟩, ([] : AnnounceCache), []⟩).events
        = [(2, 20), (2, 20)] := by
  have h := scanner_retry_requeues ⟨0, 1⟩ [FetchOutcome.retryAfter 3] []
    ⟨[(2, 20, 0)], 0, 0, 0, 0, 0, ([] : ChatMembersTable), ⟨[], ⟨[], 0⟩⟩, ([] : AnnounceCache), []⟩ 2 20 0 3 rfl rfl
  refine ⟨rfl, rfl, h.1.1, h.1.2.2.2, ?_⟩
  have h2 := h.2 3 ⟨[(2, 20, 0)], 0, 0, 0, 0, 0, ([] : ChatMembersTable), ⟨[], ⟨[], 0⟩⟩, ([] : AnnounceCache), []⟩
    rfl rfl (by decide)
  rw [h2]
  decide

end BotSpec
